import Mathlib

/-!
Verification of the aggregation core of the Dark Family War Report script
(`HTMLTest_v8.py`).  The script fetches three JSON payloads per clan (clan
info, current river race, river-race log), merges them into a per-player
registry and renders HTML.  This file gives a shallow embedding of the
benchmark estimator (`calculate_fair_benchmark`) and of the aggregation part
of `generate_html_for_clan`, and proves the specified properties about them.

Modelling conventions:
  * A JSON object field accessed with `d.get(key, default)` in Python becomes
    an `Option` field, read with `Option.getD`.  A field accessed with
    `d[key]` (which raises `KeyError` when absent) is read through
    `Except String`, the failure carrying a `KeyError` message.
  * Python dicts that the script builds (the player registry, each player's
    `war_history`, the benchmark map) become association lists
    (`List (key × value)`) with insertion-order semantics: assigning to an
    existing key replaces its value in place, assigning to a fresh key
    appends it at the end.  This matches CPython's order-preserving dicts.
  * `get_api_data` returns parsed JSON or `None`; its result is modelled as
    an `Option` payload, `none` being the failure sentinel.
  * Registry keys are `Option String` because the script uses `p.get('tag')`
    (which may be Python `None`) as a dict key when registering former
    members.
-/

namespace DarkWarReport

/-! ## Association-list primitives (CPython dict semantics) -/

section AList

variable {K V : Type} [DecidableEq K]

/-- Lookup of a key in an association list: value of the first matching
entry, mirroring a Python dict read `d[k]` / `d.get(k)`. -/
def getVal : List (K × V) → K → Option V
  | [], _ => none
  | (k', v) :: rest, k => if k' = k then some v else getVal rest k

/-- Assignment `d[k] = v` on a Python dict: replace the value of an existing
key in place, otherwise append the new entry at the end (insertion order). -/
def setVal : List (K × V) → K → V → List (K × V)
  | [], k, v => [(k, v)]
  | (k', v') :: rest, k, v =>
      if k' = k then (k', v) :: rest else (k', v') :: setVal rest k v

/-- In-place update `d[k] = f d[k]` of an existing key; a missing key is left
alone (the script always guards such updates with a membership test). -/
def modifyVal : List (K × V) → K → (V → V) → List (K × V)
  | [], _, _ => []
  | (k', v') :: rest, k, f =>
      if k' = k then (k', f v') :: rest else (k', v') :: modifyVal rest k f

/-- Set insertion `s.add(x)` restricted to the membership-relevant part:
append the element unless it is already present. -/
def addIfAbsent (acc : List K) (x : K) : List K :=
  if x ∈ acc then acc else acc ++ [x]

@[simp] theorem getVal_nil (k : K) : getVal ([] : List (K × V)) k = none := rfl

theorem getVal_cons (k' : K) (v : V) (rest : List (K × V)) (k : K) :
    getVal ((k', v) :: rest) k = if k' = k then some v else getVal rest k := rfl

theorem getVal_setVal_self (xs : List (K × V)) (k : K) (v : V) :
    getVal (setVal xs k v) k = some v := by
  induction xs with
  | nil => simp [setVal, getVal]
  | cons e rest ih =>
      obtain ⟨k', v'⟩ := e
      by_cases h : k' = k
      · simp [setVal, getVal, h]
      · simp [setVal, getVal, h, ih]

theorem getVal_setVal_ne (xs : List (K × V)) (k k' : K) (v : V) (h : k ≠ k') :
    getVal (setVal xs k v) k' = getVal xs k' := by
  induction xs with
  | nil => simp [setVal, getVal, h]
  | cons e rest ih =>
      obtain ⟨k₀, v₀⟩ := e
      by_cases h0 : k₀ = k
      · subst h0; simp [setVal, getVal, h]
      · simp [setVal, getVal, h0, ih]

theorem map_fst_setVal (xs : List (K × V)) (k : K) (v : V) :
    (setVal xs k v).map Prod.fst =
      if k ∈ xs.map Prod.fst then xs.map Prod.fst else xs.map Prod.fst ++ [k] := by
  induction xs with
  | nil => simp [setVal]
  | cons e rest ih =>
      obtain ⟨k₀, v₀⟩ := e
      by_cases h0 : k₀ = k
      · subst h0; simp [setVal]
      · have hne : ¬ k = k₀ := fun h => h0 h.symm
        by_cases hmem : k ∈ rest.map Prod.fst
        · simp [setVal, h0, ih, hmem, hne]
        · simp [setVal, h0, ih, hmem, hne]

theorem map_fst_modifyVal (xs : List (K × V)) (k : K) (f : V → V) :
    (modifyVal xs k f).map Prod.fst = xs.map Prod.fst := by
  induction xs with
  | nil => simp [modifyVal]
  | cons e rest ih =>
      obtain ⟨k₀, v₀⟩ := e
      by_cases h0 : k₀ = k
      · simp [modifyVal, h0]
      · simp [modifyVal, h0, ih]

theorem getVal_modifyVal_self (xs : List (K × V)) (k : K) (f : V → V) :
    getVal (modifyVal xs k f) k = (getVal xs k).map f := by
  induction xs with
  | nil => simp [modifyVal]
  | cons e rest ih =>
      obtain ⟨k₀, v₀⟩ := e
      by_cases h0 : k₀ = k
      · simp [modifyVal, getVal, h0]
      · simp [modifyVal, getVal, h0, ih]

theorem getVal_modifyVal_ne (xs : List (K × V)) (k k' : K) (f : V → V) (h : k ≠ k') :
    getVal (modifyVal xs k f) k' = getVal xs k' := by
  induction xs with
  | nil => simp [modifyVal]
  | cons e rest ih =>
      obtain ⟨k₀, v₀⟩ := e
      by_cases h0 : k₀ = k
      · subst h0; simp [modifyVal, getVal, h]
      · simp [modifyVal, getVal, h0, ih]

theorem getVal_eq_none_of_not_mem (xs : List (K × V)) (k : K)
    (h : k ∉ xs.map Prod.fst) : getVal xs k = none := by
  induction xs with
  | nil => rfl
  | cons e rest ih =>
      obtain ⟨k₀, v₀⟩ := e
      simp only [List.map_cons, List.mem_cons, not_or] at h
      have hne : ¬ (k₀ = k) := fun hh => h.1 hh.symm
      simp [getVal, hne, ih h.2]

theorem getVal_isSome_of_mem (xs : List (K × V)) (k : K)
    (h : k ∈ xs.map Prod.fst) : (getVal xs k).isSome := by
  induction xs with
  | nil => simp at h
  | cons e rest ih =>
      obtain ⟨k₀, v₀⟩ := e
      by_cases h0 : k₀ = k
      · simp [getVal, h0]
      · simp only [List.map_cons, List.mem_cons] at h
        rcases h with h | h
        · exact absurd h.symm h0
        · simp [getVal, h0, ih h]

theorem mem_map_fst_iff_getVal_isSome (xs : List (K × V)) (k : K) :
    k ∈ xs.map Prod.fst ↔ (getVal xs k).isSome := by
  constructor
  · exact getVal_isSome_of_mem xs k
  · intro h
    by_contra hmem
    rw [getVal_eq_none_of_not_mem xs k hmem] at h
    simp at h

theorem getVal_map_value {W : Type} (xs : List (K × V)) (g : V → W) (k : K) :
    getVal (xs.map (fun e => (e.1, g e.2))) k = (getVal xs k).map g := by
  induction xs with
  | nil => rfl
  | cons e rest ih =>
      obtain ⟨k₀, v₀⟩ := e
      by_cases h0 : k₀ = k
      · simp [getVal, h0]
      · simp [getVal, h0, ih]

theorem getVal_append_of_not_mem_left (xs ys : List (K × V)) (k : K)
    (h : k ∉ xs.map Prod.fst) : getVal (xs ++ ys) k = getVal ys k := by
  induction xs with
  | nil => rfl
  | cons e rest ih =>
      obtain ⟨k₀, v₀⟩ := e
      simp only [List.map_cons, List.mem_cons, not_or] at h
      have hne : ¬ (k₀ = k) := fun hh => h.1 hh.symm
      simp [getVal, hne, ih h.2]

theorem getVal_append_of_mem_left (xs ys : List (K × V)) (k : K)
    (h : k ∈ xs.map Prod.fst) : getVal (xs ++ ys) k = getVal xs k := by
  induction xs with
  | nil => simp at h
  | cons e rest ih =>
      obtain ⟨k₀, v₀⟩ := e
      by_cases h0 : k₀ = k
      · simp [getVal, h0]
      · simp only [List.map_cons, List.mem_cons] at h
        rcases h with h | h
        · exact absurd h.symm h0
        · simp [getVal, h0, ih h]

theorem mem_of_getVal_eq_some (xs : List (K × V)) (k : K) (v : V)
    (h : getVal xs k = some v) : (k, v) ∈ xs := by
  induction xs with
  | nil => simp [getVal] at h
  | cons e rest ih =>
      obtain ⟨k₀, v₀⟩ := e
      by_cases h0 : k₀ = k
      · subst h0
        rw [getVal_cons, if_pos rfl] at h
        obtain rfl : v₀ = v := by injection h
        exact List.mem_cons_self _ _
      · rw [getVal_cons, if_neg h0] at h
        exact List.mem_cons_of_mem _ (ih h)

theorem getVal_eq_some_of_mem_of_nodup (xs : List (K × V)) (k : K) (v : V)
    (hnd : (xs.map Prod.fst).Nodup) (h : (k, v) ∈ xs) : getVal xs k = some v := by
  induction xs with
  | nil => simp at h
  | cons e rest ih =>
      obtain ⟨k₀, v₀⟩ := e
      simp only [List.map_cons, List.nodup_cons] at hnd
      rcases List.mem_cons.mp h with h | h
      · obtain rfl : k = k₀ := congrArg Prod.fst h
        obtain rfl : v = v₀ := congrArg Prod.snd h
        simp [getVal]
      · have hk : k₀ ≠ k := by
          intro hh
          subst hh
          exact hnd.1 (List.mem_map.mpr ⟨(k₀, v), h, rfl⟩)
        simp [getVal, hk, ih hnd.2 h]

theorem mem_iff_getVal_eq_some_of_nodup (xs : List (K × V)) (k : K) (v : V)
    (hnd : (xs.map Prod.fst).Nodup) : (k, v) ∈ xs ↔ getVal xs k = some v :=
  ⟨getVal_eq_some_of_mem_of_nodup xs k v hnd, mem_of_getVal_eq_some xs k v⟩

theorem nodup_map_fst_setVal (xs : List (K × V)) (k : K) (v : V)
    (hnd : (xs.map Prod.fst).Nodup) : ((setVal xs k v).map Prod.fst).Nodup := by
  rw [map_fst_setVal]
  by_cases h : k ∈ xs.map Prod.fst
  · simpa [h] using hnd
  · simp only [h, if_false]
    exact List.Nodup.append hnd (List.nodup_singleton k) (by simpa using h)

theorem mem_addIfAbsent (acc : List K) (x y : K) :
    y ∈ addIfAbsent acc x ↔ y ∈ acc ∨ y = x := by
  unfold addIfAbsent
  by_cases h : x ∈ acc
  · simp only [if_pos h]
    constructor
    · exact Or.inl
    · rintro (hy | rfl)
      · exact hy
      · exact h
  · simp [if_neg h]

theorem nodup_addIfAbsent (acc : List K) (x : K) (hnd : acc.Nodup) :
    (addIfAbsent acc x).Nodup := by
  unfold addIfAbsent
  by_cases h : x ∈ acc
  · simpa [h] using hnd
  · simp only [if_neg h]
    exact List.Nodup.append hnd (List.nodup_singleton x) (by simpa using h)

end AList

/-! ## Data model of the JSON payloads

Each structure models exactly the keys that the script reads.  The extra
Boolean `otherFields` records whether the underlying JSON object carries any
key beyond the modelled ones; it only matters for Python truthiness (an empty
dict is falsy), which the script uses in its `not all([...])` check. -/

/-- One entry of `clan_data['memberList']`.  The script reads `member['tag']`
and `member['name']` by direct subscript (raising `KeyError` when absent), so
both are kept as `Option` and converted through `Except` at the read site. -/
structure Member where
  tag : Option String
  name : Option String
  deriving DecidableEq

/-- One war participant as it appears both in the current-war payload and in
a war-log standing; all four fields are read with `.get(..., default)`. -/
structure Participant where
  tag : Option String
  name : Option String
  fame : Option Nat
  decksUsed : Option Nat
  deriving DecidableEq

/-- The clan-info payload (`/clans/{clanTag}`). -/
structure ClanInfo where
  memberList : Option (List Member)
  otherFields : Bool
  deriving DecidableEq

/-- The `clan` object inside the current-war payload. -/
structure CurrentWarClan where
  participants : Option (List Participant)
  deriving DecidableEq

/-- The current-war payload (`/clans/{clanTag}/currentriverrace`). -/
structure CurrentWar where
  clan : Option CurrentWarClan
  otherFields : Bool
  deriving DecidableEq

/-- The `clan` object inside one standing of a logged war. -/
structure StandingClan where
  tag : Option String
  participants : Option (List Participant)
  deriving DecidableEq

/-- One standing of a logged war. -/
structure Standing where
  clan : Option StandingClan
  deriving DecidableEq

/-- One logged war (`items` entry of the river-race log). -/
structure War where
  createdDate : Option String
  standings : Option (List Standing)
  deriving DecidableEq

/-- The war-log payload (`/clans/{clanTag}/riverracelog?limit=5`). -/
structure WarLog where
  items : Option (List War)
  otherFields : Bool
  deriving DecidableEq

/-! ## Benchmark estimator (`calculate_fair_benchmark`) -/

/-- The list comprehension
`[p.get('decksUsed', 0) for p in participants if p.get('decksUsed', 0) > 0]`. -/
def decksUsedList (participants : List Participant) : List Nat :=
  (participants.map (fun p => p.decksUsed.getD 0)).filter (fun d => decide (0 < d))

/-- Python `max` over a list of naturals; the script only applies it to
nonempty lists, where folding `max` from `0` agrees with Python `max`. -/
def listMax (l : List Nat) : Nat := l.foldl Nat.max 0

/-- Tail of the computation of `Counter(l).most_common(1)[0][0]`: walk the
remaining values, replacing the current best only on a strictly larger
count. -/
def mostCommonGo (l : List Nat) : List Nat → Nat → Nat
  | [], best => best
  | y :: ys, best => mostCommonGo l ys (if l.count y > l.count best then y else best)

/-- Model of `Counter(l).most_common(1)[0][0]`.  `collections.Counter`
preserves first-insertion order and `most_common` sorts stably by descending
count, so the result is the value with the highest count whose first
occurrence comes earliest; that is exactly the first element of `l` attaining
the maximal count, which this fold computes. -/
def most_common (l : List Nat) : Nat :=
  match l with
  | [] => 0
  | x :: xs => mostCommonGo l xs x

/-- `calculate_fair_benchmark` from `HTMLTest_v8.py` (lines 48-68). -/
def calculate_fair_benchmark (participants : List Participant) : Nat :=
  if participants = [] then 16
  else
    let decks_used_list := decksUsedList participants
    if decks_used_list = [] then 16
    else
      let max_attacks := listMax decks_used_list
      let most_common_attacks := most_common decks_used_list
      if (most_common_attacks = 4 ∨ most_common_attacks = 8 ∨ most_common_attacks = 12) ∧
          most_common_attacks < max_attacks
      then most_common_attacks
      else max_attacks

/-- Convenience constructor for benchmark-only fixtures: participants that
carry just a `decksUsed` field. -/
def decksOnly (ns : List Nat) : List Participant :=
  ns.map (fun n => { tag := none, name := none, fame := none, decksUsed := some n })

/-- Index of the first occurrence of `x` in `l` (length of `l` when absent);
used to state the Counter tie-break property. -/
def firstIdx (l : List Nat) (x : Nat) : Nat :=
  match l with
  | [] => 0
  | y :: ys => if y = x then 0 else firstIdx ys x + 1

/-! ## Lemmas about the benchmark estimator -/

theorem mem_decksUsedList (participants : List Participant) (d : Nat) :
    d ∈ decksUsedList participants ↔
      ∃ p, p ∈ participants ∧ p.decksUsed.getD 0 = d ∧ 0 < d := by
  unfold decksUsedList
  rw [List.mem_filter, List.mem_map]
  simp only [decide_eq_true_eq]
  constructor
  · rintro ⟨⟨p, hp, rfl⟩, hpos⟩
    exact ⟨p, hp, rfl, hpos⟩
  · rintro ⟨p, hp, rfl, hpos⟩
    exact ⟨⟨p, hp, rfl⟩, hpos⟩

theorem pos_of_mem_decksUsedList (participants : List Participant) (d : Nat)
    (h : d ∈ decksUsedList participants) : 0 < d :=
  ((mem_decksUsedList participants d).mp h).choose_spec.2.2

theorem foldl_max_init_le (l : List Nat) : ∀ a : Nat, a ≤ l.foldl Nat.max a := by
  induction l with
  | nil => intro a; simp
  | cons x xs ih =>
      intro a
      simp only [List.foldl_cons]
      exact le_trans (Nat.le_max_left a x) (ih (Nat.max a x))

theorem le_foldl_max (l : List Nat) : ∀ (a d : Nat), d ∈ l → d ≤ l.foldl Nat.max a := by
  induction l with
  | nil => intro a d hd; simp at hd
  | cons x xs ih =>
      intro a d hd
      simp only [List.foldl_cons]
      rcases List.mem_cons.mp hd with rfl | hd
      · exact le_trans (Nat.le_max_right a d) (foldl_max_init_le xs _)
      · exact ih _ d hd

theorem le_listMax (l : List Nat) (d : Nat) (hd : d ∈ l) : d ≤ listMax l :=
  le_foldl_max l 0 d hd

theorem foldl_max_le (l : List Nat) :
    ∀ (a b : Nat), a ≤ b → (∀ d ∈ l, d ≤ b) → l.foldl Nat.max a ≤ b := by
  induction l with
  | nil => intro a b ha _; simpa using ha
  | cons x xs ih =>
      intro a b ha hall
      simp only [List.foldl_cons]
      exact ih _ b (Nat.max_le.mpr ⟨ha, hall x (List.mem_cons_self _ _)⟩)
        (fun d hd => hall d (List.mem_cons_of_mem _ hd))

theorem listMax_le (l : List Nat) (b : Nat) (hall : ∀ d ∈ l, d ≤ b) : listMax l ≤ b :=
  foldl_max_le l 0 b (Nat.zero_le b) hall

theorem mostCommonGo_count_le (l : List Nat) :
    ∀ (ys : List Nat) (b : Nat), l.count b ≤ l.count (mostCommonGo l ys b) := by
  intro ys
  induction ys with
  | nil => intro b; exact le_refl _
  | cons y ys ih =>
      intro b
      by_cases h : l.count y > l.count b
      · simp only [mostCommonGo, if_pos h]
        exact le_trans (le_of_lt h) (ih y)
      · simp only [mostCommonGo, if_neg h]
        exact ih b

theorem mostCommonGo_mem (l : List Nat) :
    ∀ (ys : List Nat) (b : Nat), mostCommonGo l ys b = b ∨ mostCommonGo l ys b ∈ ys := by
  intro ys
  induction ys with
  | nil => intro b; left; rfl
  | cons y ys ih =>
      intro b
      by_cases h : l.count y > l.count b
      · simp only [mostCommonGo, if_pos h]
        rcases ih y with h' | h'
        · right; rw [h']; exact List.mem_cons_self _ _
        · right; exact List.mem_cons_of_mem _ h'
      · simp only [mostCommonGo, if_neg h]
        rcases ih b with h' | h'
        · left; exact h'
        · right; exact List.mem_cons_of_mem _ h'

/-- Structure of `mostCommonGo`: the walked list decomposes around the result,
everything strictly before it has a strictly smaller count and everything
after it has a count at most as large. -/
theorem mostCommonGo_spec (l : List Nat) :
    ∀ (ys : List Nat) (b : Nat), ∃ zs1 zs2,
      b :: ys = zs1 ++ mostCommonGo l ys b :: zs2 ∧
      (∀ z ∈ zs1, l.count z < l.count (mostCommonGo l ys b)) ∧
      (∀ z ∈ zs2, l.count z ≤ l.count (mostCommonGo l ys b)) := by
  intro ys
  induction ys with
  | nil =>
      intro b
      exact ⟨[], [], by simp [mostCommonGo], by simp, by simp⟩
  | cons y ys ih =>
      intro b
      by_cases h : l.count y > l.count b
      · obtain ⟨zs1, zs2, heq, h1, h2⟩ := ih y
        refine ⟨b :: zs1, zs2, ?_, ?_, ?_⟩
        · simp only [mostCommonGo, if_pos h]
          rw [List.cons_append, ← heq]
        · intro z hz
          simp only [mostCommonGo, if_pos h]
          rcases List.mem_cons.mp hz with rfl | hz
          · exact lt_of_lt_of_le h (mostCommonGo_count_le l ys y)
          · exact h1 z hz
        · intro z hz
          simp only [mostCommonGo, if_pos h]
          exact h2 z hz
      · obtain ⟨zs1, zs2, heq, h1, h2⟩ := ih b
        simp only [mostCommonGo, if_neg h]
        cases zs1 with
        | nil =>
            simp only [List.nil_append] at heq
            injection heq with hb hys
            refine ⟨[], y :: ys, by rw [List.nil_append, ← hb], by simp, ?_⟩
            intro z hz
            rcases List.mem_cons.mp hz with rfl | hz
            · rw [← hb]; exact Nat.le_of_not_lt h
            · rw [hys] at hz; exact h2 z hz
        | cons a zs1' =>
            simp only [List.cons_append] at heq
            injection heq with ha hys
            have hacount : l.count b < l.count (mostCommonGo l ys b) := by
              have := h1 a (List.mem_cons_self _ _)
              rwa [← ha] at this
            refine ⟨b :: y :: zs1', zs2, ?_, ?_, h2⟩
            · simp only [List.cons_append]
              exact congrArg (fun t => b :: y :: t) hys
            · intro z hz
              rcases List.mem_cons.mp hz with rfl | hz
              · exact hacount
              · rcases List.mem_cons.mp hz with rfl | hz
                · exact lt_of_le_of_lt (Nat.le_of_not_lt h) hacount
                · exact h1 z (List.mem_cons_of_mem _ hz)

theorem most_common_mem (l : List Nat) (h : l ≠ []) : most_common l ∈ l := by
  obtain ⟨x, xs, rfl⟩ := List.exists_cons_of_ne_nil h
  show mostCommonGo (x :: xs) xs x ∈ x :: xs
  rcases mostCommonGo_mem (x :: xs) xs x with h' | h'
  · rw [h']; exact List.mem_cons_self _ _
  · exact List.mem_cons_of_mem _ h'

theorem firstIdx_cons (y : Nat) (ys : List Nat) (x : Nat) :
    firstIdx (y :: ys) x = if y = x then 0 else firstIdx ys x + 1 := rfl

theorem firstIdx_append_of_not_mem (pre rest : List Nat) (x : Nat) (h : x ∉ pre) :
    firstIdx (pre ++ rest) x = pre.length + firstIdx rest x := by
  induction pre with
  | nil => simp [firstIdx]
  | cons a pre ih =>
      simp only [List.mem_cons, not_or] at h
      have hax : ¬ (a = x) := fun hh => h.1 hh.symm
      simp only [List.cons_append, firstIdx_cons, if_neg hax, ih h.2, List.length_cons]
      omega

/-- Full behaviour of `most_common` on a nonempty list: the result occurs in
the list, attains the maximal count, and among values of maximal count its
first occurrence comes earliest. -/
theorem most_common_spec (l : List Nat) (h : l ≠ []) :
    most_common l ∈ l ∧
    (∀ y ∈ l, l.count y ≤ l.count (most_common l)) ∧
    (∀ y ∈ l, l.count y = l.count (most_common l) →
      firstIdx l (most_common l) ≤ firstIdx l y) := by
  obtain ⟨x, xs, rfl⟩ := List.exists_cons_of_ne_nil h
  set m := most_common (x :: xs) with hmdef
  have hm : m = mostCommonGo (x :: xs) xs x := hmdef
  obtain ⟨zs1, zs2, heq, h1, h2⟩ := mostCommonGo_spec (x :: xs) xs x
  rw [← hm] at heq h1 h2
  refine ⟨?_, ?_, ?_⟩
  · rw [heq]
    exact List.mem_append_right _ (List.mem_cons_self _ _)
  · intro y hy
    rw [heq] at hy
    rcases List.mem_append.mp hy with hy | hy
    · exact le_of_lt (h1 y hy)
    · rcases List.mem_cons.mp hy with rfl | hy
      · exact le_refl _
      · exact h2 y hy
  · intro y hy hcount
    have hmzs1 : m ∉ zs1 := fun hh => lt_irrefl _ (h1 _ hh)
    have hidx_m : firstIdx (x :: xs) m = zs1.length := by
      rw [heq, firstIdx_append_of_not_mem _ _ _ hmzs1]
      simp [firstIdx]
    by_cases hym : y = m
    · rw [hym]
    · have hyzs1 : y ∉ zs1 := fun hh => absurd hcount (ne_of_lt (h1 y hh))
      have hidx_y : firstIdx (x :: xs) y = zs1.length + firstIdx (m :: zs2) y := by
        rw [heq, firstIdx_append_of_not_mem _ _ _ hyzs1]
      rw [hidx_m, hidx_y]
      exact Nat.le_add_right _ _

/-! ## Claims about the benchmark estimator -/

/-- C3: on a non-empty participant list with at least one positive attack
count, `calculate_fair_benchmark` returns the mode of the positive attack
counts when that mode lies in `{4, 8, 12}` and is strictly below the maximal
positive count, and otherwise returns that maximum; an all-equal positive
count `k` always yields `k`, and `[4, 4, 4, 8, 4, 4]` yields `4`. -/
theorem benchmark_mode_rule (participants : List Participant)
    (h1 : participants ≠ [])
    (h2 : ∃ p, p ∈ participants ∧ 0 < p.decksUsed.getD 0) :
    (calculate_fair_benchmark participants =
      if (most_common (decksUsedList participants) = 4 ∨
          most_common (decksUsedList participants) = 8 ∨
          most_common (decksUsedList participants) = 12) ∧
          most_common (decksUsedList participants) < listMax (decksUsedList participants)
       then most_common (decksUsedList participants)
       else listMax (decksUsedList participants)) ∧
    (∀ k, 0 < k → (∀ p ∈ participants, p.decksUsed.getD 0 = k) →
      calculate_fair_benchmark participants = k) ∧
    calculate_fair_benchmark (decksOnly [4, 4, 4, 8, 4, 4]) = 4 := by
  have hd : decksUsedList participants ≠ [] := by
    obtain ⟨p, hp, hpos⟩ := h2
    exact List.ne_nil_of_mem ((mem_decksUsedList participants _).mpr ⟨p, hp, rfl, hpos⟩)
  refine ⟨?_, ?_, by decide⟩
  · simp [calculate_fair_benchmark, h1, hd]
  · intro k hk hall
    have hdeq : ∀ d ∈ decksUsedList participants, d = k := by
      intro d hdm
      obtain ⟨p, hp, he, _⟩ := (mem_decksUsedList participants d).mp hdm
      rw [← he, hall p hp]
    have hmc : most_common (decksUsedList participants) = k :=
      hdeq _ (most_common_mem _ hd)
    have hlm : listMax (decksUsedList participants) = k := by
      obtain ⟨d0, hd0⟩ := List.exists_mem_of_ne_nil _ hd
      apply le_antisymm
      · exact listMax_le _ k (fun d hdm => le_of_eq (hdeq d hdm))
      · rw [← hdeq d0 hd0]; exact le_listMax _ d0 hd0
    simp [calculate_fair_benchmark, h1, hd, hmc, hlm]

/-- C3 witness: the concrete fixture from the spec. -/
theorem benchmark_mode_rule_witness :
    calculate_fair_benchmark (decksOnly [4, 4, 4, 8, 4, 4]) = 4 :=
  (benchmark_mode_rule (decksOnly [4, 4, 4, 8, 4, 4]) (by decide)
    ⟨{ tag := none, name := none, fame := none, decksUsed := some 4 }, by decide⟩).2.2

/-- C4: `calculate_fair_benchmark` is total, always positive, and returns the
default ceiling 16 on an empty list and on an all-zero list. -/
theorem benchmark_positive_and_default (participants : List Participant) :
    0 < calculate_fair_benchmark participants ∧
    (participants = [] → calculate_fair_benchmark participants = 16) ∧
    ((∀ p ∈ participants, p.decksUsed.getD 0 = 0) →
      calculate_fair_benchmark participants = 16) := by
  by_cases h1 : participants = []
  · subst h1
    exact ⟨by decide, fun _ => rfl, fun _ => rfl⟩
  · by_cases hd : decksUsedList participants = []
    · have h16 : calculate_fair_benchmark participants = 16 := by
        simp [calculate_fair_benchmark, h1, hd]
      exact ⟨by rw [h16]; omega, fun h => absurd h h1, fun _ => h16⟩
    · have hmpos : 0 < most_common (decksUsedList participants) :=
        pos_of_mem_decksUsedList _ _ (most_common_mem _ hd)
      have hmaxpos : 0 < listMax (decksUsedList participants) := by
        obtain ⟨d0, hd0⟩ := List.exists_mem_of_ne_nil _ hd
        exact lt_of_lt_of_le (pos_of_mem_decksUsedList _ _ hd0) (le_listMax _ d0 hd0)
      refine ⟨?_, fun h => absurd h h1, ?_⟩
      · simp only [calculate_fair_benchmark, if_neg h1, if_neg hd]
        split
        · exact hmpos
        · exact hmaxpos
      · intro hall
        exfalso
        apply hd
        apply List.eq_nil_iff_forall_not_mem.mpr
        intro d hdm
        obtain ⟨p, hp, he, hpos⟩ := (mem_decksUsedList participants d).mp hdm
        rw [hall p hp] at he
        omega

/-- C4 witness: an all-zero fixture and the empty fixture both give 16. -/
theorem benchmark_positive_and_default_witness :
    calculate_fair_benchmark (decksOnly [0, 0]) = 16 ∧
    calculate_fair_benchmark [] = 16 ∧
    0 < calculate_fair_benchmark (decksOnly [0, 0]) :=
  ⟨(benchmark_positive_and_default (decksOnly [0, 0])).2.2 (by decide),
   (benchmark_positive_and_default []).2.1 rfl,
   (benchmark_positive_and_default (decksOnly [0, 0])).1⟩

/-- C9: on the positive attack counts, the value picked by the
Counter-based mode computation attains the maximal frequency, and among all
values tied for the maximal frequency it is the one whose first occurrence
comes earliest in input order; the estimator is a function of the input
sequence, so equal inputs give equal benchmarks. -/
theorem benchmark_tiebreak_first_occurrence (participants : List Participant)
    (h : decksUsedList participants ≠ []) :
    most_common (decksUsedList participants) ∈ decksUsedList participants ∧
    (∀ y ∈ decksUsedList participants,
      (decksUsedList participants).count y ≤
        (decksUsedList participants).count (most_common (decksUsedList participants))) ∧
    (∀ y ∈ decksUsedList participants,
      (decksUsedList participants).count y =
        (decksUsedList participants).count (most_common (decksUsedList participants)) →
      firstIdx (decksUsedList participants) (most_common (decksUsedList participants)) ≤
        firstIdx (decksUsedList participants) y) ∧
    (∀ qs : List Participant, participants = qs →
      calculate_fair_benchmark participants = calculate_fair_benchmark qs) := by
  obtain ⟨hmem, hmax, htie⟩ := most_common_spec (decksUsedList participants) h
  exact ⟨hmem, hmax, htie, fun qs hq => by rw [hq]⟩

/-- C9 witness: with counts tied between 8 (seen first) and 4, the mode is 8
and its first occurrence is no later than that of 4. -/
theorem benchmark_tiebreak_witness :
    most_common (decksUsedList (decksOnly [8, 8, 4, 4, 6])) = 8 ∧
    firstIdx (decksUsedList (decksOnly [8, 8, 4, 4, 6]))
        (most_common (decksUsedList (decksOnly [8, 8, 4, 4, 6]))) ≤
      firstIdx (decksUsedList (decksOnly [8, 8, 4, 4, 6])) 4 :=
  ⟨by decide,
   (benchmark_tiebreak_first_occurrence (decksOnly [8, 8, 4, 4, 6]) (by decide)).2.2.1 4
     (by decide) (by decide)⟩

/-! ## Roster aggregation (`generate_html_for_clan`, lines 70-143)

The HTML-rendering part of the function is pure templating over the
aggregated data, so the embedding returns the aggregated data itself:
the player registry, the ordered war-id list and the per-war benchmark map
(the values consumed by the renderers), or the degraded error fragment. -/

/-- One `war_history` value: the dict `{'fame': ..., 'decksUsed': ...}`. -/
structure WarEntry where
  fame : Nat
  decksUsed : Nat
  deriving DecidableEq

/-- One record of the `player_stats` registry. -/
structure PlayerStats where
  name : String
  current_war_decks_used : Nat
  current_war_fame : Nat
  total_war_fame : Nat
  total_decks_used : Nat
  war_history : List (String × WarEntry)
  deriving DecidableEq

/-- The player registry: a Python dict keyed by `p.get('tag')`-style values
(which may be `None`, hence `Option String`). -/
abbrev Registry := List (Option String × PlayerStats)

/-- Result of one clan's report: either the degraded error fragment (API
failure path, lines 79-86) or the aggregated data handed to the renderers. -/
inductive ReportResult where
  | errorFragment
  | report (registry : Registry) (war_ids : List String)
      (war_benchmarks : List (String × Nat))
  deriving DecidableEq

/-- The configured set of "top" clans that use the fair-benchmark policy
(`TOP_CLANS_FOR_BENCHMARK` in the script); only membership is used. -/
def TOP_CLANS_FOR_BENCHMARK : List String :=
  ["#2V2VRRLJ", "#8UCRLJ0J", "#8Y8UG0JJ", "#YUYP9229"]

/-- Python truthiness of the clan-info payload (`{}` is falsy). -/
def truthyClanInfo (c : ClanInfo) : Bool := c.memberList.isSome || c.otherFields

/-- Python truthiness of the current-war payload. -/
def truthyCurrentWar (c : CurrentWar) : Bool := c.clan.isSome || c.otherFields

/-- Python truthiness of the war-log payload. -/
def truthyWarLog (w : WarLog) : Bool := w.items.isSome || w.otherFields

/-- Line 88: `{member['tag'] for member in clan_data.get('memberList', [])}`;
a direct subscript, so a member without a tag raises `KeyError`. -/
def currentMemberTags : List Member → Except String (List String)
  | [] => .ok []
  | m :: ms =>
      match m.tag with
      | some t => (currentMemberTags ms).map (fun ts => t :: ts)
      | none => .error "KeyError: tag"

/-- A freshly seeded record for a current member (lines 90-93). -/
def freshStats (name : String) : PlayerStats :=
  { name := name, current_war_decks_used := 0, current_war_fame := 0,
    total_war_fame := 0, total_decks_used := 0, war_history := [] }

/-- Lines 89-94: the `player_stats` dict comprehension over the member list;
`member['tag']` and `member['name']` are direct subscripts. -/
def seedPlayerStats : List Member → Registry → Except String Registry
  | [], reg => .ok reg
  | m :: ms, reg =>
      match m.tag, m.name with
      | some t, some n => seedPlayerStats ms (setVal reg (some t) (freshStats n))
      | none, _ => .error "KeyError: tag"
      | some _, none => .error "KeyError: name"

/-- The participant list of the current-war payload:
`current_war_data.get('clan', {}).get('participants', [])`. -/
def cwParts (cw : CurrentWar) : List Participant :=
  ((cw.clan.getD { participants := none }).participants).getD []

/-- Lines 96-99: overlay current-war attacks/fame onto matching registry
entries.  The guard tests `p.get('tag') in player_stats`; when it passes, the
assignment reads `p['tag']` by direct subscript, which raises `KeyError`
exactly when the participant has no tag (only possible if `None` is a
registry key). -/
def overlayGo : List Participant → Registry → Except String Registry
  | [], reg => .ok reg
  | p :: ps, reg =>
      if p.tag ∈ reg.map Prod.fst then
        match p.tag with
        | some t =>
            overlayGo ps (modifyVal reg (some t) (fun s =>
              { s with current_war_decks_used := p.decksUsed.getD 0,
                       current_war_fame := p.fame.getD 0 }))
        | none => .error "KeyError: tag"
      else overlayGo ps reg

/-- Model of Python `s.split('T')[0]`: the prefix of `s` before the first
`'T'` (the whole string when `'T'` does not occur). -/
def dateOnly (s : String) : String :=
  String.mk (s.data.takeWhile (fun c => c ≠ 'T'))

/-- Line 102: the war identifier
`f"War {i+1} ({war.get('createdDate', 'N/A').split('T')[0]})"`. -/
def warIdOf (i : Nat) (war : War) : String :=
  "War " ++ Nat.repr (i + 1) ++ " (" ++ dateOnly (war.createdDate.getD "N/A") ++ ")"

/-- The clan tag of a standing: `standing.get('clan', {}).get('tag')`. -/
def standingClanTag (st : Standing) : Option String :=
  (st.clan.getD { tag := none, participants := none }).tag

/-- The participants of a standing:
`standing.get('clan', {}).get('participants', [])`. -/
def standingParts (st : Standing) : List Participant :=
  ((st.clan.getD { tag := none, participants := none }).participants).getD []

/-- Inner loop of lines 108-109: add every participant tag of one standing
to the accumulated set (insertion-ordered set semantics). -/
def addPartTags : List Participant → List (Option String) → List (Option String)
  | [], acc => acc
  | p :: ps, acc => addPartTags ps (addIfAbsent acc p.tag)

/-- Lines 106-109: scan every standing of one war, keeping those whose clan
tag equals the clan under report. -/
def addStandingTags (clan_tag : String) : List Standing → List (Option String) → List (Option String)
  | [], acc => acc
  | st :: sts, acc =>
      addStandingTags clan_tag sts
        (if standingClanTag st = some clan_tag then addPartTags (standingParts st) acc
         else acc)

/-- Lines 104-109: `all_participants`, seeded with the registry keys and
extended with every matching standing's participant tags. -/
def allParticipantTags (clan_tag : String) : List War → List (Option String) → List (Option String)
  | [], acc => acc
  | war :: wars, acc =>
      allParticipantTags clan_tag wars (addStandingTags clan_tag (war.standings.getD []) acc)

/-- The record inserted at lines 112-114 for a tag with no current-roster
entry. -/
def formerStats : PlayerStats :=
  { name := "Former Member (*)", current_war_decks_used := 0, current_war_fame := 0,
    total_war_fame := 0, total_decks_used := 0, war_history := [] }

/-- Lines 111-114: insert a placeholder record for every collected tag that
is not yet a registry key. -/
def addFormerMembers : List (Option String) → Registry → Registry
  | [], reg => reg
  | t :: ts, reg =>
      addFormerMembers ts (if t ∈ reg.map Prod.fst then reg else reg ++ [(t, formerStats)])

/-- Lines 120-124: the participants of the first standing whose clan tag
matches the clan under report (`break` after the first match), `[]` when no
standing matches. -/
def firstMatchingParticipants (clan_tag : String) (war : War) : List Participant :=
  match (war.standings.getD []).find? (fun st => decide (standingClanTag st = some clan_tag)) with
  | some st => standingParts st
  | none => []

/-- Line 133 for a single record: default this war's history entry to
zero. -/
def zeroEntry (war_id : String) (s : PlayerStats) : PlayerStats :=
  { s with war_history := setVal s.war_history war_id ⟨0, 0⟩ }

/-- Lines 132-133: default this war's history entry to zero for every
registry key. -/
def zeroHistories (war_id : String) (reg : Registry) : Registry :=
  reg.map (fun e => (e.1, zeroEntry war_id e.2))

/-- Lines 136-142 for a single participant `p` applied to the record of
`p.get('tag')`: fix up a placeholder name, overwrite this war's history
entry, and accumulate the totals.  A missing participant name renders as
Python `None` inside the f-string, hence the `"None"` default. -/
def applyPart (war_id : String) (p : Participant) (s : PlayerStats) : PlayerStats :=
  { name := if s.name = "Former Member (*)" then (p.name.getD "None") ++ " (*)" else s.name,
    current_war_decks_used := s.current_war_decks_used,
    current_war_fame := s.current_war_fame,
    total_war_fame := s.total_war_fame + p.fame.getD 0,
    total_decks_used := s.total_decks_used + p.decksUsed.getD 0,
    war_history := setVal s.war_history war_id ⟨p.fame.getD 0, p.decksUsed.getD 0⟩ }

/-- Lines 135-142: walk the war's participants, updating the record of each
tag that is a registry key (`if tag in player_stats`). -/
def applyParts (war_id : String) : List Participant → Registry → Registry
  | [], reg => reg
  | p :: ps, reg =>
      applyParts war_id ps
        (if p.tag ∈ reg.map Prod.fst then modifyVal reg p.tag (applyPart war_id p) else reg)

/-- One iteration of the war loop for the registry (lines 132-142). -/
def processWar (war_id : String) (parts : List Participant) (reg : Registry) : Registry :=
  applyParts war_id parts (zeroHistories war_id reg)

/-- Lines 116-142: the war loop over the enumerated war-log items, threading
the registry and the benchmark map. -/
def warLoopGo (clan_tag : String) :
    List (Nat × War) → Registry × List (String × Nat) → Registry × List (String × Nat)
  | [], acc => acc
  | iw :: rest, acc =>
      warLoopGo clan_tag rest
        (processWar (warIdOf iw.1 iw.2) (firstMatchingParticipants clan_tag iw.2) acc.1,
         setVal acc.2 (warIdOf iw.1 iw.2)
           (if clan_tag ∈ TOP_CLANS_FOR_BENCHMARK
            then calculate_fair_benchmark (firstMatchingParticipants clan_tag iw.2)
            else 16))

/-- Lines 88-142: the aggregation pipeline on three successfully fetched
payloads. -/
def aggregateClan (clan_tag : String) (cd : ClanInfo) (cw : CurrentWar) (wl : WarLog) :
    Except String ReportResult :=
  match currentMemberTags (cd.memberList.getD []) with
  | .error e => .error e
  | .ok _ =>
      match seedPlayerStats (cd.memberList.getD []) [] with
      | .error e => .error e
      | .ok reg0 =>
          match overlayGo (cwParts cw) reg0 with
          | .error e => .error e
          | .ok reg1 =>
              let items := wl.items.getD []
              let war_ids := items.enum.map (fun iw => warIdOf iw.1 iw.2)
              let reg2 := addFormerMembers
                (allParticipantTags clan_tag items (reg1.map Prod.fst)) reg1
              let res := warLoopGo clan_tag items.enum (reg2, [])
              .ok (.report res.1 war_ids res.2)

/-- Lines 70-143 of `generate_html_for_clan`, with the three `get_api_data`
results passed in as parameters (`none` is the failure sentinel) and the
rendering step abstracted to the aggregated data.  Line 79 checks
`not all([clan_data, current_war_data, war_log_data])`, i.e. Python
truthiness of each payload. -/
def generate_html_for_clan (clan_tag : String) (clan_data : Option ClanInfo)
    (current_war_data : Option CurrentWar) (war_log_data : Option WarLog) :
    Except String ReportResult :=
  match clan_data, current_war_data, war_log_data with
  | some cd, some cw, some wl =>
      if truthyClanInfo cd && truthyCurrentWar cw && truthyWarLog wl then
        aggregateClan clan_tag cd cw wl
      else .ok .errorFragment
  | _, _, _ => .ok .errorFragment

/-! ## Frame lemmas: registry keys through the pipeline -/

theorem map_fst_zeroHistories (war_id : String) (reg : Registry) :
    (zeroHistories war_id reg).map Prod.fst = reg.map Prod.fst := by
  unfold zeroHistories
  induction reg with
  | nil => rfl
  | cons e rest ih => simp [ih]

theorem map_fst_applyParts (war_id : String) :
    ∀ (ps : List Participant) (reg : Registry),
      (applyParts war_id ps reg).map Prod.fst = reg.map Prod.fst := by
  intro ps
  induction ps with
  | nil => intro reg; rfl
  | cons p ps ih =>
      intro reg
      show (applyParts war_id ps _).map Prod.fst = _
      by_cases h : p.tag ∈ reg.map Prod.fst
      · rw [if_pos h, ih, map_fst_modifyVal]
      · rw [if_neg h, ih]

theorem map_fst_processWar (war_id : String) (parts : List Participant) (reg : Registry) :
    (processWar war_id parts reg).map Prod.fst = reg.map Prod.fst := by
  unfold processWar
  rw [map_fst_applyParts, map_fst_zeroHistories]

theorem map_fst_warLoopGo (clan_tag : String) :
    ∀ (E : List (Nat × War)) (reg : Registry) (bms : List (String × Nat)),
      (warLoopGo clan_tag E (reg, bms)).1.map Prod.fst = reg.map Prod.fst := by
  intro E
  induction E with
  | nil => intro reg bms; rfl
  | cons iw rest ih =>
      intro reg bms
      show (warLoopGo clan_tag rest _).1.map Prod.fst = _
      rw [ih, map_fst_processWar]

theorem mem_map_fst_setVal {K V : Type} [DecidableEq K]
    (xs : List (K × V)) (k k' : K) (v : V) :
    k' ∈ (setVal xs k v).map Prod.fst ↔ k' ∈ xs.map Prod.fst ∨ k' = k := by
  rw [map_fst_setVal]
  by_cases h : k ∈ xs.map Prod.fst
  · simp only [if_pos h]
    constructor
    · exact Or.inl
    · rintro (hy | rfl)
      · exact hy
      · exact h
  · simp [if_neg h]

theorem mem_map_fst_addFormerMembers :
    ∀ (ts : List (Option String)) (reg : Registry) (k : Option String),
      k ∈ (addFormerMembers ts reg).map Prod.fst ↔ k ∈ reg.map Prod.fst ∨ k ∈ ts := by
  intro ts
  induction ts with
  | nil => intro reg k; simp [addFormerMembers]
  | cons t ts ih =>
      intro reg k
      show k ∈ (addFormerMembers ts _).map Prod.fst ↔ _
      by_cases h : t ∈ reg.map Prod.fst
      · rw [if_pos h, ih]
        constructor
        · rintro (hk | hk)
          · exact Or.inl hk
          · exact Or.inr (List.mem_cons_of_mem _ hk)
        · rintro (hk | hk)
          · exact Or.inl hk
          · rcases List.mem_cons.mp hk with rfl | hk
            · exact Or.inl h
            · exact Or.inr hk
      · rw [if_neg h, ih]
        simp only [List.map_append, List.mem_append, List.map_cons, List.map_nil,
          List.mem_singleton, List.mem_cons, List.not_mem_nil, or_false]
        tauto

theorem nodup_map_fst_addFormerMembers :
    ∀ (ts : List (Option String)) (reg : Registry),
      (reg.map Prod.fst).Nodup → ((addFormerMembers ts reg).map Prod.fst).Nodup := by
  intro ts
  induction ts with
  | nil => intro reg h; exact h
  | cons t ts ih =>
      intro reg h
      show ((addFormerMembers ts _).map Prod.fst).Nodup
      by_cases hmem : t ∈ reg.map Prod.fst
      · rw [if_pos hmem]; exact ih reg h
      · rw [if_neg hmem]
        apply ih
        simp only [List.map_append, List.map_cons, List.map_nil]
        exact List.Nodup.append h (List.nodup_singleton t) (by simpa using hmem)

/-! ## Frame lemmas: registry values through the pipeline -/

theorem getVal_zeroHistories (war_id : String) (reg : Registry) (k : Option String) :
    getVal (zeroHistories war_id reg) k =
      (getVal reg k).map (zeroEntry war_id) := by
  unfold zeroHistories
  exact getVal_map_value reg (zeroEntry war_id) k

theorem getVal_applyParts (war_id : String) :
    ∀ (ps : List Participant) (reg : Registry) (k : Option String),
      getVal (applyParts war_id ps reg) k =
        (getVal reg k).map
          (fun s => (ps.filter (fun p => decide (p.tag = k))).foldl
            (fun s p => applyPart war_id p s) s) := by
  intro ps
  induction ps with
  | nil =>
      intro reg k
      unfold applyParts
      cases h : getVal reg k <;> simp [h]
  | cons p ps ih =>
      intro reg k
      show getVal (applyParts war_id ps _) k = _
      by_cases hpt : p.tag = k
      · subst hpt
        by_cases hk : p.tag ∈ reg.map Prod.fst
        · rw [if_pos hk, ih, getVal_modifyVal_self]
          simp only [List.filter_cons, decide_eq_true_eq, if_pos rfl, decide_True,
            List.foldl_cons, Option.map_map]
          rfl
        · rw [if_neg hk, ih, getVal_eq_none_of_not_mem reg _ hk]
          rfl
      · have hfilter :
            (p :: ps).filter (fun p => decide (p.tag = k)) =
              ps.filter (fun p => decide (p.tag = k)) := by
          simp [List.filter_cons, hpt]
        by_cases hk : p.tag ∈ reg.map Prod.fst
        · rw [if_pos hk, ih, getVal_modifyVal_ne reg p.tag k _ hpt, hfilter]
        · rw [if_neg hk, ih, hfilter]

/-- The participants of war `iw` (with its index) that update the record
keyed `k`: those of the first matching standing whose `p.get('tag')` is `k`,
in list order. -/
def matchesOf (clan_tag : String) (k : Option String) (iw : Nat × War) : List Participant :=
  (firstMatchingParticipants clan_tag iw.2).filter (fun p => decide (p.tag = k))

/-- Record-level effect of one war-loop iteration on the entry keyed `k`. -/
def recordWarStep (clan_tag : String) (k : Option String) (s : PlayerStats)
    (iw : Nat × War) : PlayerStats :=
  (matchesOf clan_tag k iw).foldl
    (fun s p => applyPart (warIdOf iw.1 iw.2) p s)
    (zeroEntry (warIdOf iw.1 iw.2) s)

theorem getVal_processWar (clan_tag : String) (iw : Nat × War) (reg : Registry)
    (k : Option String) :
    getVal (processWar (warIdOf iw.1 iw.2) (firstMatchingParticipants clan_tag iw.2) reg) k =
      (getVal reg k).map (fun s => recordWarStep clan_tag k s iw) := by
  unfold processWar
  rw [getVal_applyParts, getVal_zeroHistories, Option.map_map]
  rfl

theorem getVal_warLoopGo (clan_tag : String) :
    ∀ (E : List (Nat × War)) (reg : Registry) (bms : List (String × Nat)) (k : Option String),
      getVal (warLoopGo clan_tag E (reg, bms)).1 k =
        (getVal reg k).map (fun s => E.foldl (recordWarStep clan_tag k) s) := by
  intro E
  induction E with
  | nil =>
      intro reg bms k
      unfold warLoopGo
      cases h : getVal reg k <;> simp [h]
  | cons iw rest ih =>
      intro reg bms k
      show getVal (warLoopGo clan_tag rest _).1 k = _
      rw [ih, getVal_processWar, Option.map_map]
      rfl

/-! ## Lemmas about seeding, the current-war overlay and former members -/

theorem seedPlayerStats_keys :
    ∀ (ms : List Member) (acc reg : Registry),
      seedPlayerStats ms acc = .ok reg →
      ∀ k, k ∈ reg.map Prod.fst ↔ k ∈ acc.map Prod.fst ∨ ∃ m ∈ ms, m.tag = k := by
  intro ms
  induction ms with
  | nil =>
      intro acc reg h k
      injection h with h2
      subst h2
      simp
  | cons m ms ih =>
      intro acc reg h k
      cases htag : m.tag with
      | none =>
          simp only [seedPlayerStats, htag] at h
          exact Except.noConfusion h
      | some t =>
          cases hname : m.name with
          | none =>
              simp only [seedPlayerStats, htag, hname] at h
              exact Except.noConfusion h
          | some n =>
              simp only [seedPlayerStats, htag, hname] at h
              rw [ih _ _ h k, mem_map_fst_setVal]
              constructor
              · rintro ((hk | rfl) | ⟨m', hm', hk⟩)
                · exact Or.inl hk
                · exact Or.inr ⟨m, List.mem_cons_self _ _, htag⟩
                · exact Or.inr ⟨m', List.mem_cons_of_mem _ hm', hk⟩
              · rintro (hk | ⟨m', hm', hk⟩)
                · exact Or.inl (Or.inl hk)
                · rcases List.mem_cons.mp hm' with rfl | hm'
                  · left; right; rw [← hk]; exact htag
                  · exact Or.inr ⟨m', hm', hk⟩

theorem seedPlayerStats_nodup :
    ∀ (ms : List Member) (acc reg : Registry),
      seedPlayerStats ms acc = .ok reg →
      (acc.map Prod.fst).Nodup → (reg.map Prod.fst).Nodup := by
  intro ms
  induction ms with
  | nil =>
      intro acc reg h hnd
      injection h with h2
      subst h2
      exact hnd
  | cons m ms ih =>
      intro acc reg h hnd
      cases htag : m.tag with
      | none =>
          simp only [seedPlayerStats, htag] at h
          exact Except.noConfusion h
      | some t =>
          cases hname : m.name with
          | none =>
              simp only [seedPlayerStats, htag, hname] at h
              exact Except.noConfusion h
          | some n =>
              simp only [seedPlayerStats, htag, hname] at h
              exact ih _ _ h (nodup_map_fst_setVal acc _ _ hnd)

theorem seedPlayerStats_values :
    ∀ (ms : List Member) (acc reg : Registry),
      seedPlayerStats ms acc = .ok reg →
      ∀ k s, getVal reg k = some s →
        getVal acc k = some s ∨ ∃ n, s = freshStats n := by
  intro ms
  induction ms with
  | nil =>
      intro acc reg h k s hs
      injection h with h2
      subst h2
      exact Or.inl hs
  | cons m ms ih =>
      intro acc reg h k s hs
      cases htag : m.tag with
      | none =>
          simp only [seedPlayerStats, htag] at h
          exact Except.noConfusion h
      | some t =>
          cases hname : m.name with
          | none =>
              simp only [seedPlayerStats, htag, hname] at h
              exact Except.noConfusion h
          | some n =>
              simp only [seedPlayerStats, htag, hname] at h
              rcases ih _ _ h k s hs with hk | hfresh
              · by_cases hkt : k = some t
                · subst hkt
                  rw [getVal_setVal_self] at hk
                  injection hk with hk
                  exact Or.inr ⟨n, hk.symm⟩
                · rw [getVal_setVal_ne acc (some t) k _ (fun hh => hkt hh.symm)] at hk
                  exact Or.inl hk
              · exact Or.inr hfresh

theorem seedPlayerStats_ok :
    ∀ (ms : List Member) (acc : Registry),
      (∀ m ∈ ms, m.tag.isSome ∧ m.name.isSome) →
      ∃ reg, seedPlayerStats ms acc = .ok reg := by
  intro ms
  induction ms with
  | nil => intro acc _; exact ⟨acc, rfl⟩
  | cons m ms ih =>
      intro acc hall
      obtain ⟨t, htag⟩ := Option.isSome_iff_exists.mp (hall m (List.mem_cons_self _ _)).1
      obtain ⟨n, hname⟩ := Option.isSome_iff_exists.mp (hall m (List.mem_cons_self _ _)).2
      obtain ⟨reg, hreg⟩ := ih (setVal acc (some t) (freshStats n))
        (fun m' hm' => hall m' (List.mem_cons_of_mem _ hm'))
      exact ⟨reg, by simp only [seedPlayerStats, htag, hname]; exact hreg⟩

theorem currentMemberTags_ok :
    ∀ (ms : List Member), (∀ m ∈ ms, m.tag.isSome) →
      ∃ ts, currentMemberTags ms = .ok ts := by
  intro ms
  induction ms with
  | nil => intro _; exact ⟨[], rfl⟩
  | cons m ms ih =>
      intro hall
      obtain ⟨t, htag⟩ := Option.isSome_iff_exists.mp (hall m (List.mem_cons_self _ _))
      obtain ⟨ts, hts⟩ := ih (fun m' hm' => hall m' (List.mem_cons_of_mem _ hm'))
      refine ⟨t :: ts, ?_⟩
      simp only [currentMemberTags, htag, hts]
      rfl

theorem overlayGo_keys :
    ∀ (ps : List Participant) (reg reg' : Registry),
      overlayGo ps reg = .ok reg' → reg'.map Prod.fst = reg.map Prod.fst := by
  intro ps
  induction ps with
  | nil =>
      intro reg reg' h
      injection h with h2
      subst h2
      rfl
  | cons p ps ih =>
      intro reg reg' h
      by_cases hg : p.tag ∈ reg.map Prod.fst
      · cases htag : p.tag with
        | none =>
            rw [htag] at hg
            simp only [overlayGo, if_pos hg, htag] at h
            exact Except.noConfusion h
        | some t =>
            rw [htag] at hg
            simp only [overlayGo, htag, if_pos hg] at h
            rw [ih _ _ h, map_fst_modifyVal]
      · simp only [overlayGo, if_neg hg] at h
        exact ih _ _ h

theorem overlayGo_untouched :
    ∀ (ps : List Participant) (reg reg' : Registry),
      overlayGo ps reg = .ok reg' →
      ∀ k, (∀ p ∈ ps, p.tag ≠ k) → getVal reg' k = getVal reg k := by
  intro ps
  induction ps with
  | nil =>
      intro reg reg' h k _
      injection h with h2
      subst h2
      rfl
  | cons p ps ih =>
      intro reg reg' h k hall
      by_cases hg : p.tag ∈ reg.map Prod.fst
      · cases htag : p.tag with
        | none =>
            rw [htag] at hg
            simp only [overlayGo, if_pos hg, htag] at h
            exact Except.noConfusion h
        | some t =>
            rw [htag] at hg
            simp only [overlayGo, htag, if_pos hg] at h
            have hne : some t ≠ k := htag ▸ hall p (List.mem_cons_self _ _)
            rw [ih _ _ h k (fun p' hp' => hall p' (List.mem_cons_of_mem _ hp')),
              getVal_modifyVal_ne reg (some t) k _ hne]
      · simp only [overlayGo, if_neg hg] at h
        exact ih _ _ h k (fun p' hp' => hall p' (List.mem_cons_of_mem _ hp'))

theorem overlayGo_values :
    ∀ (ps : List Participant) (reg reg' : Registry),
      overlayGo ps reg = .ok reg' →
      ∀ k s', getVal reg' k = some s' →
        ∃ s, getVal reg k = some s ∧ s'.name = s.name ∧
          s'.total_war_fame = s.total_war_fame ∧
          s'.total_decks_used = s.total_decks_used ∧
          s'.war_history = s.war_history := by
  intro ps
  induction ps with
  | nil =>
      intro reg reg' h k s' hs'
      injection h with h2
      subst h2
      exact ⟨s', hs', rfl, rfl, rfl, rfl⟩
  | cons p ps ih =>
      intro reg reg' h k s' hs'
      by_cases hg : p.tag ∈ reg.map Prod.fst
      · cases htag : p.tag with
        | none =>
            rw [htag] at hg
            simp only [overlayGo, if_pos hg, htag] at h
            exact Except.noConfusion h
        | some t =>
            rw [htag] at hg
            simp only [overlayGo, htag, if_pos hg] at h
            obtain ⟨s₁, hs₁, hname, hfame, hdecks, hhist⟩ := ih _ _ h k s' hs'
            by_cases hkt : k = some t
            · subst hkt
              rw [getVal_modifyVal_self] at hs₁
              obtain ⟨s, hs, rfl⟩ := Option.map_eq_some'.mp hs₁
              exact ⟨s, hs, hname, hfame, hdecks, hhist⟩
            · rw [getVal_modifyVal_ne reg (some t) k _ (fun hh => hkt hh.symm)] at hs₁
              exact ⟨s₁, hs₁, hname, hfame, hdecks, hhist⟩
      · simp only [overlayGo, if_neg hg] at h
        exact ih _ _ h k s' hs'

theorem overlayGo_ok :
    ∀ (ps : List Participant) (reg : Registry),
      (∀ k ∈ reg.map Prod.fst, k.isSome) →
      ∃ reg', overlayGo ps reg = .ok reg' := by
  intro ps
  induction ps with
  | nil => intro reg _; exact ⟨reg, rfl⟩
  | cons p ps ih =>
      intro reg hall
      by_cases hg : p.tag ∈ reg.map Prod.fst
      · obtain ⟨t, htag⟩ := Option.isSome_iff_exists.mp (hall p.tag hg)
        rw [htag] at hg
        obtain ⟨reg', hreg'⟩ := ih
          (modifyVal reg (some t) (fun s =>
            { s with current_war_decks_used := p.decksUsed.getD 0,
                     current_war_fame := p.fame.getD 0 }))
          (by rw [map_fst_modifyVal]; exact hall)
        refine ⟨reg', ?_⟩
        simp only [overlayGo, htag, if_pos hg]
        exact hreg'
      · obtain ⟨reg', hreg'⟩ := ih reg hall
        refine ⟨reg', ?_⟩
        simp only [overlayGo, if_neg hg]
        exact hreg'

theorem mem_addPartTags :
    ∀ (ps : List Participant) (acc : List (Option String)) (k : Option String),
      k ∈ addPartTags ps acc ↔ k ∈ acc ∨ ∃ p ∈ ps, p.tag = k := by
  intro ps
  induction ps with
  | nil => intro acc k; simp [addPartTags]
  | cons p ps ih =>
      intro acc k
      show k ∈ addPartTags ps _ ↔ _
      rw [ih, mem_addIfAbsent]
      constructor
      · rintro ((hk | rfl) | ⟨p', hp', hk⟩)
        · exact Or.inl hk
        · exact Or.inr ⟨p, List.mem_cons_self _ _, rfl⟩
        · exact Or.inr ⟨p', List.mem_cons_of_mem _ hp', hk⟩
      · rintro (hk | ⟨p', hp', hk⟩)
        · exact Or.inl (Or.inl hk)
        · rcases List.mem_cons.mp hp' with rfl | hp'
          · left; right; exact hk.symm
          · exact Or.inr ⟨p', hp', hk⟩

theorem mem_addStandingTags (clan_tag : String) :
    ∀ (sts : List Standing) (acc : List (Option String)) (k : Option String),
      k ∈ addStandingTags clan_tag sts acc ↔
        k ∈ acc ∨ ∃ st ∈ sts, standingClanTag st = some clan_tag ∧
          ∃ p ∈ standingParts st, p.tag = k := by
  intro sts
  induction sts with
  | nil => intro acc k; simp [addStandingTags]
  | cons st sts ih =>
      intro acc k
      show k ∈ addStandingTags clan_tag sts _ ↔ _
      rw [ih]
      by_cases hc : standingClanTag st = some clan_tag
      · rw [if_pos hc, mem_addPartTags]
        constructor
        · rintro ((hk | ⟨p, hp, hk⟩) | ⟨st', hst', hc', hk⟩)
          · exact Or.inl hk
          · exact Or.inr ⟨st, List.mem_cons_self _ _, hc, p, hp, hk⟩
          · exact Or.inr ⟨st', List.mem_cons_of_mem _ hst', hc', hk⟩
        · rintro (hk | ⟨st', hst', hc', hk⟩)
          · exact Or.inl (Or.inl hk)
          · rcases List.mem_cons.mp hst' with rfl | hst'
            · exact Or.inl (Or.inr hk)
            · exact Or.inr ⟨st', hst', hc', hk⟩
      · rw [if_neg hc]
        constructor
        · rintro (hk | ⟨st', hst', hc', hk⟩)
          · exact Or.inl hk
          · exact Or.inr ⟨st', List.mem_cons_of_mem _ hst', hc', hk⟩
        · rintro (hk | ⟨st', hst', hc', hk⟩)
          · exact Or.inl hk
          · rcases List.mem_cons.mp hst' with rfl | hst'
            · exact absurd hc' hc
            · exact Or.inr ⟨st', hst', hc', hk⟩

theorem mem_allParticipantTags (clan_tag : String) :
    ∀ (wars : List War) (acc : List (Option String)) (k : Option String),
      k ∈ allParticipantTags clan_tag wars acc ↔
        k ∈ acc ∨ ∃ war ∈ wars, ∃ st ∈ war.standings.getD [],
          standingClanTag st = some clan_tag ∧ ∃ p ∈ standingParts st, p.tag = k := by
  intro wars
  induction wars with
  | nil => intro acc k; simp [allParticipantTags]
  | cons war wars ih =>
      intro acc k
      show k ∈ allParticipantTags clan_tag wars _ ↔ _
      rw [ih, mem_addStandingTags]
      constructor
      · rintro ((hk | ⟨st, hst, hc, hk⟩) | ⟨war', hwar', hk⟩)
        · exact Or.inl hk
        · exact Or.inr ⟨war, List.mem_cons_self _ _, st, hst, hc, hk⟩
        · exact Or.inr ⟨war', List.mem_cons_of_mem _ hwar', hk⟩
      · rintro (hk | ⟨war', hwar', hk⟩)
        · exact Or.inl (Or.inl hk)
        · rcases List.mem_cons.mp hwar' with rfl | hwar'
          · exact Or.inl (Or.inr hk)
          · exact Or.inr ⟨war', hwar', hk⟩

theorem getVal_addFormerMembers :
    ∀ (ts : List (Option String)) (reg : Registry) (k : Option String),
      getVal (addFormerMembers ts reg) k =
        if k ∈ reg.map Prod.fst then getVal reg k
        else if k ∈ ts then some formerStats else none := by
  intro ts
  induction ts with
  | nil =>
      intro reg k
      by_cases h : k ∈ reg.map Prod.fst
      · simp [addFormerMembers, h]
      · simp [addFormerMembers, h, getVal_eq_none_of_not_mem reg k h]
  | cons t ts ih =>
      intro reg k
      show getVal (addFormerMembers ts _) k = _
      by_cases ht : t ∈ reg.map Prod.fst
      · rw [if_pos ht, ih]
        by_cases hk : k ∈ reg.map Prod.fst
        · simp [hk]
        · rw [if_neg hk, if_neg hk]
          by_cases hkt : k = t
          · subst hkt; exact absurd ht hk
          · simp [List.mem_cons, hkt]
      · rw [if_neg ht, ih]
        have hkeys : (reg ++ [(t, formerStats)]).map Prod.fst = reg.map Prod.fst ++ [t] := by
          simp
        by_cases hk : k ∈ reg.map Prod.fst
        · have hmem : k ∈ (reg ++ [(t, formerStats)]).map Prod.fst := by
            rw [hkeys]; exact List.mem_append_left _ hk
          rw [if_pos hmem, if_pos hk, getVal_append_of_mem_left _ _ _ hk]
        · by_cases hkt : k = t
          · subst hkt
            have hmem : k ∈ (reg ++ [(k, formerStats)]).map Prod.fst := by
              rw [hkeys]; exact List.mem_append_right _ (List.mem_singleton.mpr rfl)
            rw [if_pos hmem, getVal_append_of_not_mem_left _ _ _ hk, if_neg hk]
            simp [getVal, List.mem_cons]
          · have hmem : k ∉ (reg ++ [(t, formerStats)]).map Prod.fst := by
              rw [hkeys]; simp [hk, hkt]
            rw [if_neg hmem, if_neg hk]
            simp [List.mem_cons, hkt]

/-! ## Record-level behaviour of the war loop -/

/-- Line 138-139 as a function of the current name: replace the placeholder
by the participant's suffixed reported name, otherwise keep the name. -/
def nameStep (nm : String) (p : Participant) : String :=
  if nm = "Former Member (*)" then (p.name.getD "None") ++ " (*)" else nm

theorem foldl_applyPart_name (war_id : String) :
    ∀ (ps : List Participant) (s : PlayerStats),
      (ps.foldl (fun s p => applyPart war_id p s) s).name = ps.foldl nameStep s.name := by
  intro ps
  induction ps with
  | nil => intro s; rfl
  | cons p ps ih =>
      intro s
      simp only [List.foldl_cons]
      rw [ih]
      rfl

theorem foldl_applyPart_current (war_id : String) :
    ∀ (ps : List Participant) (s : PlayerStats),
      (ps.foldl (fun s p => applyPart war_id p s) s).current_war_decks_used =
          s.current_war_decks_used ∧
      (ps.foldl (fun s p => applyPart war_id p s) s).current_war_fame =
          s.current_war_fame := by
  intro ps
  induction ps with
  | nil => intro s; exact ⟨rfl, rfl⟩
  | cons p ps ih =>
      intro s
      simp only [List.foldl_cons]
      exact ih (applyPart war_id p s)

theorem foldl_applyPart_totals (war_id : String) :
    ∀ (ps : List Participant) (s : PlayerStats),
      (ps.foldl (fun s p => applyPart war_id p s) s).total_war_fame =
          s.total_war_fame + (ps.map (fun p => p.fame.getD 0)).sum ∧
      (ps.foldl (fun s p => applyPart war_id p s) s).total_decks_used =
          s.total_decks_used + (ps.map (fun p => p.decksUsed.getD 0)).sum := by
  intro ps
  induction ps with
  | nil => intro s; simp
  | cons p ps ih =>
      intro s
      simp only [List.foldl_cons, List.map_cons, List.sum_cons]
      obtain ⟨h1, h2⟩ := ih (applyPart war_id p s)
      constructor
      · rw [h1]; show s.total_war_fame + _ + _ = _; omega
      · rw [h2]; show s.total_decks_used + _ + _ = _; omega

theorem foldl_applyPart_history_keys (war_id : String) :
    ∀ (ps : List Participant) (s : PlayerStats),
      war_id ∈ s.war_history.map Prod.fst →
      (ps.foldl (fun s p => applyPart war_id p s) s).war_history.map Prod.fst =
        s.war_history.map Prod.fst := by
  intro ps
  induction ps with
  | nil => intro s _; rfl
  | cons p ps ih =>
      intro s hmem
      simp only [List.foldl_cons]
      have hkeys : (applyPart war_id p s).war_history.map Prod.fst =
          s.war_history.map Prod.fst := by
        show (setVal s.war_history war_id _).map Prod.fst = _
        rw [map_fst_setVal, if_pos hmem]
      rw [ih (applyPart war_id p s) (by rw [hkeys]; exact hmem), hkeys]

theorem foldl_applyPart_history_self (war_id : String) :
    ∀ (ps : List Participant) (s : PlayerStats) (e : WarEntry),
      getVal s.war_history war_id = some e →
      getVal (ps.foldl (fun s p => applyPart war_id p s) s).war_history war_id =
        some (ps.foldl (fun _ p => (⟨p.fame.getD 0, p.decksUsed.getD 0⟩ : WarEntry)) e) := by
  intro ps
  induction ps with
  | nil => intro s e he; exact he
  | cons p ps ih =>
      intro s e he
      simp only [List.foldl_cons]
      exact ih (applyPart war_id p s) _ (getVal_setVal_self s.war_history war_id _)

theorem foldl_applyPart_history_other (war_id : String) :
    ∀ (ps : List Participant) (s : PlayerStats) (id' : String), id' ≠ war_id →
      getVal (ps.foldl (fun s p => applyPart war_id p s) s).war_history id' =
        getVal s.war_history id' := by
  intro ps
  induction ps with
  | nil => intro s id' _; rfl
  | cons p ps ih =>
      intro s id' hne
      simp only [List.foldl_cons]
      rw [ih (applyPart war_id p s) id' hne]
      show getVal (setVal s.war_history war_id _) id' = _
      rw [getVal_setVal_ne s.war_history war_id id' _ (fun hh => hne hh.symm)]

theorem recordWarStep_name (clan_tag : String) (k : Option String) (s : PlayerStats)
    (iw : Nat × War) :
    (recordWarStep clan_tag k s iw).name = (matchesOf clan_tag k iw).foldl nameStep s.name := by
  unfold recordWarStep
  rw [foldl_applyPart_name]
  rfl

theorem recordWarStep_current (clan_tag : String) (k : Option String) (s : PlayerStats)
    (iw : Nat × War) :
    (recordWarStep clan_tag k s iw).current_war_decks_used = s.current_war_decks_used ∧
    (recordWarStep clan_tag k s iw).current_war_fame = s.current_war_fame := by
  unfold recordWarStep
  exact foldl_applyPart_current _ _ _

theorem recordWarStep_totals (clan_tag : String) (k : Option String) (s : PlayerStats)
    (iw : Nat × War) :
    (recordWarStep clan_tag k s iw).total_war_fame =
        s.total_war_fame + ((matchesOf clan_tag k iw).map (fun p => p.fame.getD 0)).sum ∧
    (recordWarStep clan_tag k s iw).total_decks_used =
        s.total_decks_used + ((matchesOf clan_tag k iw).map (fun p => p.decksUsed.getD 0)).sum := by
  unfold recordWarStep
  exact foldl_applyPart_totals _ _ _

theorem map_fst_setVal_eq_addIfAbsent {K V : Type} [DecidableEq K]
    (xs : List (K × V)) (k : K) (v : V) :
    (setVal xs k v).map Prod.fst = addIfAbsent (xs.map Prod.fst) k := by
  rw [map_fst_setVal]
  rfl

theorem self_mem_addIfAbsent {K : Type} [DecidableEq K] (acc : List K) (x : K) :
    x ∈ addIfAbsent acc x := by
  rw [mem_addIfAbsent]
  exact Or.inr rfl

theorem recordWarStep_history_keys (clan_tag : String) (k : Option String) (s : PlayerStats)
    (iw : Nat × War) :
    (recordWarStep clan_tag k s iw).war_history.map Prod.fst =
      addIfAbsent (s.war_history.map Prod.fst) (warIdOf iw.1 iw.2) := by
  unfold recordWarStep
  rw [foldl_applyPart_history_keys]
  · show (setVal s.war_history _ _).map Prod.fst = _
    rw [map_fst_setVal_eq_addIfAbsent]
  · show warIdOf iw.1 iw.2 ∈ (setVal s.war_history _ _).map Prod.fst
    rw [map_fst_setVal_eq_addIfAbsent]
    exact self_mem_addIfAbsent _ _

theorem recordWarStep_history_self (clan_tag : String) (k : Option String) (s : PlayerStats)
    (iw : Nat × War) :
    getVal (recordWarStep clan_tag k s iw).war_history (warIdOf iw.1 iw.2) =
      some ((matchesOf clan_tag k iw).foldl
        (fun _ p => (⟨p.fame.getD 0, p.decksUsed.getD 0⟩ : WarEntry)) ⟨0, 0⟩) := by
  unfold recordWarStep
  exact foldl_applyPart_history_self _ _ _ _ (getVal_setVal_self s.war_history _ _)

theorem recordWarStep_history_other (clan_tag : String) (k : Option String) (s : PlayerStats)
    (iw : Nat × War) (id' : String) (hne : id' ≠ warIdOf iw.1 iw.2) :
    getVal (recordWarStep clan_tag k s iw).war_history id' = getVal s.war_history id' := by
  unfold recordWarStep
  rw [foldl_applyPart_history_other _ _ _ _ hne]
  show getVal (setVal s.war_history _ _) id' = _
  rw [getVal_setVal_ne s.war_history _ id' _ (fun hh => hne hh.symm)]

theorem foldl_recordWarStep_name (clan_tag : String) (k : Option String) :
    ∀ (E : List (Nat × War)) (s : PlayerStats),
      (E.foldl (recordWarStep clan_tag k) s).name =
        (E.flatMap (matchesOf clan_tag k)).foldl nameStep s.name := by
  intro E
  induction E with
  | nil => intro s; rfl
  | cons iw E ih =>
      intro s
      simp only [List.foldl_cons, List.flatMap_cons, List.foldl_append]
      rw [ih, recordWarStep_name]

theorem foldl_recordWarStep_current (clan_tag : String) (k : Option String) :
    ∀ (E : List (Nat × War)) (s : PlayerStats),
      (E.foldl (recordWarStep clan_tag k) s).current_war_decks_used =
          s.current_war_decks_used ∧
      (E.foldl (recordWarStep clan_tag k) s).current_war_fame = s.current_war_fame := by
  intro E
  induction E with
  | nil => intro s; exact ⟨rfl, rfl⟩
  | cons iw E ih =>
      intro s
      simp only [List.foldl_cons]
      obtain ⟨h1, h2⟩ := ih (recordWarStep clan_tag k s iw)
      obtain ⟨h3, h4⟩ := recordWarStep_current clan_tag k s iw
      exact ⟨h1.trans h3, h2.trans h4⟩

theorem foldl_recordWarStep_totals (clan_tag : String) (k : Option String) :
    ∀ (E : List (Nat × War)) (s : PlayerStats),
      (E.foldl (recordWarStep clan_tag k) s).total_war_fame =
          s.total_war_fame + ((E.flatMap (matchesOf clan_tag k)).map (fun p => p.fame.getD 0)).sum ∧
      (E.foldl (recordWarStep clan_tag k) s).total_decks_used =
          s.total_decks_used +
            ((E.flatMap (matchesOf clan_tag k)).map (fun p => p.decksUsed.getD 0)).sum := by
  intro E
  induction E with
  | nil => intro s; simp
  | cons iw E ih =>
      intro s
      simp only [List.foldl_cons, List.flatMap_cons, List.map_append, List.sum_append]
      obtain ⟨h1, h2⟩ := ih (recordWarStep clan_tag k s iw)
      obtain ⟨h3, h4⟩ := recordWarStep_totals clan_tag k s iw
      constructor
      · rw [h1, h3]; omega
      · rw [h2, h4]; omega

theorem foldl_recordWarStep_history_keys (clan_tag : String) (k : Option String) :
    ∀ (E : List (Nat × War)) (s : PlayerStats),
      (E.foldl (recordWarStep clan_tag k) s).war_history.map Prod.fst =
        E.foldl (fun ks iw => addIfAbsent ks (warIdOf iw.1 iw.2))
          (s.war_history.map Prod.fst) := by
  intro E
  induction E with
  | nil => intro s; rfl
  | cons iw E ih =>
      intro s
      simp only [List.foldl_cons]
      rw [ih, recordWarStep_history_keys]

theorem foldl_recordWarStep_history_preserve (clan_tag : String) (k : Option String) :
    ∀ (E : List (Nat × War)) (s : PlayerStats) (id : String),
      id ∉ E.map (fun iw => warIdOf iw.1 iw.2) →
      getVal (E.foldl (recordWarStep clan_tag k) s).war_history id =
        getVal s.war_history id := by
  intro E
  induction E with
  | nil => intro s id _; rfl
  | cons iw E ih =>
      intro s id hid
      simp only [List.map_cons, List.mem_cons, not_or] at hid
      simp only [List.foldl_cons]
      rw [ih _ id hid.2, recordWarStep_history_other _ _ _ _ _ hid.1]

theorem foldl_recordWarStep_history_lookup (clan_tag : String) (k : Option String) :
    ∀ (E : List (Nat × War)) (s : PlayerStats),
      (E.map (fun iw => warIdOf iw.1 iw.2)).Nodup →
      ∀ iw ∈ E,
        getVal (E.foldl (recordWarStep clan_tag k) s).war_history (warIdOf iw.1 iw.2) =
          some ((matchesOf clan_tag k iw).foldl
            (fun _ p => (⟨p.fame.getD 0, p.decksUsed.getD 0⟩ : WarEntry)) ⟨0, 0⟩) := by
  intro E
  induction E with
  | nil => intro s _ iw hiw; simp at hiw
  | cons e E ih =>
      intro s hnd iw hiw
      simp only [List.map_cons, List.nodup_cons] at hnd
      simp only [List.foldl_cons]
      rcases List.mem_cons.mp hiw with rfl | hiw
      · rw [foldl_recordWarStep_history_preserve clan_tag k E _ _ hnd.1]
        exact recordWarStep_history_self clan_tag k s iw
      · exact ih _ hnd.2 iw hiw

/-! ## Distinctness of war identifiers

The war-log endpoint is queried with `limit=5`, and the spec's aggregation
contract fixes the war log to "up to 5 past wars", so the enumeration indices
are below 5; the labels `War 1 (...)` .. `War 5 (...)` then differ pairwise in
their prefix before the date, whatever the dates are. -/

theorem append_ne_of_prefix_ne (a b d e : String)
    (hlen : a.data.length = b.data.length) (hne : a ≠ b) : a ++ d ≠ b ++ e := by
  intro h
  apply hne
  have h2 : a.data ++ d.data = b.data ++ e.data := by
    rw [← String.data_append, ← String.data_append, h]
  obtain ⟨h3, _⟩ := List.append_inj h2 hlen
  exact congrArg String.mk h3

theorem warIdOf_assoc (i : Nat) (war : War) :
    warIdOf i war =
      ("War " ++ Nat.repr (i + 1) ++ " (") ++
        (dateOnly (war.createdDate.getD "N/A") ++ ")") := by
  unfold warIdOf
  rw [String.append_assoc]

theorem warIdOf_inj_lt5 (i j : Nat) (hi : i < 5) (hj : j < 5) (w w' : War)
    (h : warIdOf i w = warIdOf j w') : i = j := by
  by_contra hne
  rw [warIdOf_assoc, warIdOf_assoc] at h
  interval_cases i <;> interval_cases j <;>
    first
      | exact hne rfl
      | exact append_ne_of_prefix_ne _ _ _ _ (by decide) (by decide) h

theorem nodup_map_warIdOf :
    ∀ (E : List (Nat × War)), (E.map Prod.fst).Nodup → (∀ iw ∈ E, iw.1 < 5) →
      (E.map (fun iw => warIdOf iw.1 iw.2)).Nodup := by
  intro E
  induction E with
  | nil => intro _ _; simp
  | cons e E ih =>
      intro hnd hb
      simp only [List.map_cons, List.nodup_cons] at hnd ⊢
      refine ⟨?_, ih hnd.2 (fun iw h => hb iw (List.mem_cons_of_mem _ h))⟩
      intro hmem
      obtain ⟨iw, hiw, heq⟩ := List.mem_map.mp hmem
      have hfst : iw.1 = e.1 :=
        warIdOf_inj_lt5 iw.1 e.1 (hb iw (List.mem_cons_of_mem _ hiw))
          (hb e (List.mem_cons_self _ _)) iw.2 e.2 heq
      apply hnd.1
      rw [← hfst]
      exact List.mem_map_of_mem Prod.fst hiw

theorem warIds_nodup (items : List War) (hlen : items.length ≤ 5) :
    (items.enum.map (fun iw => warIdOf iw.1 iw.2)).Nodup := by
  apply nodup_map_warIdOf
  · exact List.nodup_enum_map_fst items
  · intro iw hiw
    have h1 : iw.1 ∈ items.enum.map Prod.fst := List.mem_map_of_mem Prod.fst hiw
    rw [List.enum_map_fst] at h1
    have := List.mem_range.mp h1
    omega

/-! ## Generic fold lemmas for insertion-ordered sets -/

theorem mem_foldl_addIfAbsent {K A : Type} [DecidableEq K] (f : A → K) :
    ∀ (E : List A) (acc : List K) (x : K),
      x ∈ E.foldl (fun ks e => addIfAbsent ks (f e)) acc ↔ x ∈ acc ∨ x ∈ E.map f := by
  intro E
  induction E with
  | nil => intro acc x; simp
  | cons e E ih =>
      intro acc x
      simp only [List.foldl_cons, List.map_cons, List.mem_cons]
      rw [ih, mem_addIfAbsent]
      tauto

theorem nodup_foldl_addIfAbsent {K A : Type} [DecidableEq K] (f : A → K) :
    ∀ (E : List A) (acc : List K), acc.Nodup →
      (E.foldl (fun ks e => addIfAbsent ks (f e)) acc).Nodup := by
  intro E
  induction E with
  | nil => intro acc h; exact h
  | cons e E ih =>
      intro acc h
      simp only [List.foldl_cons]
      exact ih _ (nodup_addIfAbsent acc (f e) h)

/-! ## Per-war matches under the at-most-once precondition -/

theorem length_filter_le_one {A B : Type} [DecidableEq B]
    (f : A → B) (k : B) :
    ∀ (l : List A), (l.map f).Nodup →
      (l.filter (fun x => decide (f x = k))).length ≤ 1 := by
  intro l
  induction l with
  | nil => intro _; simp
  | cons a l ih =>
      intro hnd
      simp only [List.map_cons, List.nodup_cons] at hnd
      by_cases ha : f a = k
      · have hnil : l.filter (fun x => decide (f x = k)) = [] := by
          rw [List.filter_eq_nil_iff]
          intro x hx
          simp only [decide_eq_true_eq]
          intro hfx
          exact hnd.1 (List.mem_map.mpr ⟨x, hx, by rw [hfx, ha]⟩)
        simp [List.filter_cons, ha, hnil]
      · simp only [List.filter_cons, decide_eq_true_eq, ha, if_false]
        exact ih hnd.2

/-- Under the per-war no-duplicate-tags precondition, the summed fame and
attacks of the matching participants agree with the final history entry
(overwrite semantics and accumulation coincide on at most one update). -/
theorem sum_matches_eq_entry (clan_tag : String) (k : Option String) (iw : Nat × War)
    (hnd : ((firstMatchingParticipants clan_tag iw.2).map (fun p => p.tag)).Nodup) :
    ((matchesOf clan_tag k iw).map (fun p => p.fame.getD 0)).sum =
        ((matchesOf clan_tag k iw).foldl
          (fun _ p => (⟨p.fame.getD 0, p.decksUsed.getD 0⟩ : WarEntry)) ⟨0, 0⟩).fame ∧
    ((matchesOf clan_tag k iw).map (fun p => p.decksUsed.getD 0)).sum =
        ((matchesOf clan_tag k iw).foldl
          (fun _ p => (⟨p.fame.getD 0, p.decksUsed.getD 0⟩ : WarEntry)) ⟨0, 0⟩).decksUsed := by
  have hlen : (matchesOf clan_tag k iw).length ≤ 1 := by
    show ((firstMatchingParticipants clan_tag iw.2).filter
      (fun p => decide (p.tag = k))).length ≤ 1
    exact length_filter_le_one (fun p : Participant => p.tag) k _ hnd
  cases hm : matchesOf clan_tag k iw with
  | nil => simp
  | cons p rest =>
      rw [hm] at hlen
      simp only [List.length_cons] at hlen
      have : rest = [] := List.length_eq_zero.mp (by omega)
      subst this
      simp

theorem sum_map_flatMap {A B : Type} (g : A → List B) (f : B → Nat) :
    ∀ (E : List A),
      ((E.flatMap g).map f).sum = (E.map (fun a => ((g a).map f).sum)).sum := by
  intro E
  induction E with
  | nil => rfl
  | cons a E ih =>
      simp only [List.flatMap_cons, List.map_append, List.sum_append, List.map_cons,
        List.sum_cons, ih]

/-! ## Elimination of a successful run of the pipeline -/

theorem aggregateClan_ok_elim (clan_tag : String) (cd : ClanInfo) (cw : CurrentWar)
    (wl : WarLog) (r : ReportResult) (h : aggregateClan clan_tag cd cw wl = .ok r) :
    ∃ reg0 reg1,
      seedPlayerStats (cd.memberList.getD []) [] = .ok reg0 ∧
      overlayGo (cwParts cw) reg0 = .ok reg1 ∧
      r = .report
        (warLoopGo clan_tag (wl.items.getD []).enum
          (addFormerMembers
            (allParticipantTags clan_tag (wl.items.getD []) (reg1.map Prod.fst)) reg1, [])).1
        ((wl.items.getD []).enum.map (fun iw => warIdOf iw.1 iw.2))
        (warLoopGo clan_tag (wl.items.getD []).enum
          (addFormerMembers
            (allParticipantTags clan_tag (wl.items.getD []) (reg1.map Prod.fst)) reg1, [])).2 := by
  unfold aggregateClan at h
  cases h1 : currentMemberTags (cd.memberList.getD []) with
  | error e =>
      simp only [h1] at h
      exact Except.noConfusion h
  | ok ts =>
      cases h2 : seedPlayerStats (cd.memberList.getD []) [] with
      | error e =>
          simp only [h1, h2] at h
          exact Except.noConfusion h
      | ok reg0 =>
          cases h3 : overlayGo (cwParts cw) reg0 with
          | error e =>
              simp only [h1, h2, h3] at h
              exact Except.noConfusion h
          | ok reg1 =>
              simp only [h1, h2, h3, Except.ok.injEq] at h
              exact ⟨reg0, reg1, rfl, h3, h.symm⟩

theorem generate_ok_report_elim (clan_tag : String) (cd : ClanInfo) (cw : CurrentWar)
    (wl : WarLog) (reg : Registry) (ids : List String) (bms : List (String × Nat))
    (h : generate_html_for_clan clan_tag (some cd) (some cw) (some wl) =
      .ok (.report reg ids bms)) :
    aggregateClan clan_tag cd cw wl = .ok (.report reg ids bms) := by
  simp only [generate_html_for_clan] at h
  by_cases ht : (truthyClanInfo cd && truthyCurrentWar cw && truthyWarLog wl) = true
  · rwa [if_pos ht] at h
  · rw [if_neg ht] at h
    injection h with h2
    exact ReportResult.noConfusion h2

theorem aggregateClan_ne_errorFragment (clan_tag : String) (cd : ClanInfo) (cw : CurrentWar)
    (wl : WarLog) (r : ReportResult) (h : aggregateClan clan_tag cd cw wl = .ok r) :
    r ≠ .errorFragment := by
  obtain ⟨reg0, reg1, _, _, hrep⟩ := aggregateClan_ok_elim clan_tag cd cw wl r h
  subst hrep
  exact fun hh => ReportResult.noConfusion hh

/-- Properties of the registry right after seeding and the current-war
overlay: its keys are exactly the roster tags, they are distinct, and every
record still has zero cumulative totals and an empty history. -/
theorem preLoop_registry (cd : ClanInfo) (cw : CurrentWar) (reg0 reg1 : Registry)
    (hseed : seedPlayerStats (cd.memberList.getD []) [] = .ok reg0)
    (hover : overlayGo (cwParts cw) reg0 = .ok reg1) :
    (∀ k, k ∈ reg1.map Prod.fst ↔ ∃ m ∈ cd.memberList.getD [], m.tag = k) ∧
    (reg1.map Prod.fst).Nodup ∧
    (∀ k s, getVal reg1 k = some s →
      s.total_war_fame = 0 ∧ s.total_decks_used = 0 ∧ s.war_history = []) := by
  have hkeys0 : ∀ k, k ∈ reg0.map Prod.fst ↔ ∃ m ∈ cd.memberList.getD [], m.tag = k := by
    intro k
    rw [seedPlayerStats_keys _ _ _ hseed k]
    simp
  have hkeys1 : reg1.map Prod.fst = reg0.map Prod.fst := overlayGo_keys _ _ _ hover
  refine ⟨?_, ?_, ?_⟩
  · intro k; rw [hkeys1]; exact hkeys0 k
  · rw [hkeys1]; exact seedPlayerStats_nodup _ _ _ hseed (by simp)
  · intro k s hs
    obtain ⟨s0, hs0, _, hfame, hdecks, hhist⟩ := overlayGo_values _ _ _ hover k s hs
    rcases seedPlayerStats_values _ _ _ hseed k s0 hs0 with h0 | ⟨n, rfl⟩
    · simp [getVal] at h0
    · exact ⟨by rw [hfame]; rfl, by rw [hdecks]; rfl, by rw [hhist]; rfl⟩

/-! ## Claims about the roster aggregation -/

/-- C1: the key set of the final player registry is exactly the union of the
current roster's member tags and the tags of every participant appearing in
any war-log standing whose clan tag equals the clan under report. -/
theorem registry_keys_union (clan_tag : String) (cd : ClanInfo) (cw : CurrentWar)
    (wl : WarLog) (reg : Registry) (ids : List String) (bms : List (String × Nat))
    (h : generate_html_for_clan clan_tag (some cd) (some cw) (some wl) =
      Except.ok (.report reg ids bms)) (k : Option String) :
    k ∈ reg.map Prod.fst ↔
      (∃ m ∈ cd.memberList.getD [], m.tag = k) ∨
      (∃ war ∈ wl.items.getD [], ∃ st ∈ war.standings.getD [],
        standingClanTag st = some clan_tag ∧ ∃ p ∈ standingParts st, p.tag = k) := by
  obtain ⟨reg0, reg1, hseed, hover, hrep⟩ :=
    aggregateClan_ok_elim _ _ _ _ _ (generate_ok_report_elim _ _ _ _ _ _ _ h)
  injection hrep with hreg hids hbms
  subst hreg
  obtain ⟨hk1, _, _⟩ := preLoop_registry cd cw reg0 reg1 hseed hover
  rw [map_fst_warLoopGo, mem_map_fst_addFormerMembers, mem_allParticipantTags]
  constructor
  · rintro (hk | (hk | hk))
    · exact Or.inl ((hk1 k).mp hk)
    · exact Or.inl ((hk1 k).mp hk)
    · exact Or.inr hk
  · rintro (hk | hk)
    · exact Or.inl ((hk1 k).mpr hk)
    · exact Or.inr (Or.inr hk)

/-- C2: every record's `war_history` has exactly one entry per war identifier
of the ordered war-id list and no entry outside it, and the entry for a war
whose matching standing does not mention the player's tag (in particular when
no standing matches the clan tag) is `{fame: 0, decksUsed: 0}`.  The war log
is the `limit=5` endpoint, so at most 5 items are assumed, which makes the
generated identifiers pairwise distinct. -/
theorem war_history_complete (clan_tag : String) (cd : ClanInfo) (cw : CurrentWar)
    (wl : WarLog) (reg : Registry) (ids : List String) (bms : List (String × Nat))
    (h : generate_html_for_clan clan_tag (some cd) (some cw) (some wl) =
      Except.ok (.report reg ids bms))
    (hlen : (wl.items.getD []).length ≤ 5) :
    ∀ k s, (k, s) ∈ reg →
      (∀ id ∈ ids, (s.war_history.map Prod.fst).count id = 1) ∧
      (∀ id ∈ s.war_history.map Prod.fst, id ∈ ids) ∧
      (∀ iw ∈ (wl.items.getD []).enum,
        (∀ p ∈ firstMatchingParticipants clan_tag iw.2, p.tag ≠ k) →
        getVal s.war_history (warIdOf iw.1 iw.2) = some ⟨0, 0⟩) := by
  obtain ⟨reg0, reg1, hseed, hover, hrep⟩ :=
    aggregateClan_ok_elim _ _ _ _ _ (generate_ok_report_elim _ _ _ _ _ _ _ h)
  injection hrep with hreg hids hbms
  subst hreg
  subst hids
  obtain ⟨hk1, hnd1, hval1⟩ := preLoop_registry cd cw reg0 reg1 hseed hover
  intro k s hks
  have hnd2 : ((addFormerMembers
      (allParticipantTags clan_tag (wl.items.getD []) (reg1.map Prod.fst)) reg1).map
        Prod.fst).Nodup :=
    nodup_map_fst_addFormerMembers _ _ hnd1
  have hndfinal : ((warLoopGo clan_tag (wl.items.getD []).enum
      (addFormerMembers
        (allParticipantTags clan_tag (wl.items.getD []) (reg1.map Prod.fst)) reg1,
        [])).1.map Prod.fst).Nodup := by
    rw [map_fst_warLoopGo]
    exact hnd2
  have hget := getVal_eq_some_of_mem_of_nodup _ _ _ hndfinal hks
  rw [getVal_warLoopGo] at hget
  obtain ⟨s0, hs0, hsfold⟩ := Option.map_eq_some'.mp hget
  have hs0hist : s0.war_history = [] := by
    rw [getVal_addFormerMembers] at hs0
    by_cases hkm : k ∈ reg1.map Prod.fst
    · rw [if_pos hkm] at hs0
      exact (hval1 k s0 hs0).2.2
    · rw [if_neg hkm] at hs0
      by_cases hts : k ∈ allParticipantTags clan_tag (wl.items.getD []) (reg1.map Prod.fst)
      · rw [if_pos hts] at hs0
        injection hs0 with hs0
        rw [← hs0]
        rfl
      · rw [if_neg hts] at hs0
        exact Option.noConfusion hs0
  subst hsfold
  have hidsnodup := warIds_nodup (wl.items.getD []) hlen
  have hkeys := foldl_recordWarStep_history_keys clan_tag k (wl.items.getD []).enum s0
  rw [hs0hist] at hkeys
  simp only [List.map_nil] at hkeys
  refine ⟨?_, ?_, ?_⟩
  · intro id hid
    rw [hkeys]
    have hmem : id ∈ (wl.items.getD []).enum.foldl
        (fun ks iw => addIfAbsent ks (warIdOf iw.1 iw.2)) [] :=
      (mem_foldl_addIfAbsent _ _ _ _).mpr (Or.inr hid)
    have hnd : ((wl.items.getD []).enum.foldl
        (fun ks iw => addIfAbsent ks (warIdOf iw.1 iw.2)) []).Nodup :=
      nodup_foldl_addIfAbsent _ _ [] (by simp)
    exact List.count_eq_one_of_mem hnd hmem
  · intro id hid
    rw [hkeys] at hid
    rcases (mem_foldl_addIfAbsent _ _ _ _).mp hid with hid | hid
    · simp at hid
    · exact hid
  · intro iw hiw hnone
    have hmatches : matchesOf clan_tag k iw = [] := by
      unfold matchesOf
      rw [List.filter_eq_nil_iff]
      intro p hp
      simp only [decide_eq_true_eq]
      exact hnone p hp
    have hlook := foldl_recordWarStep_history_lookup clan_tag k
      (wl.items.getD []).enum s0 hidsnodup iw hiw
    rw [hmatches] at hlook
    simpa using hlook

/-- C7: under the precondition that each logged war's matching participant
list mentions each tag at most once, the cumulative fame and cumulative
attacks of every final record equal the sums of its per-war history entries
over the war-id list; a tag absent from the current roster additionally has
zero current-war fields. -/
theorem cumulative_totals (clan_tag : String) (cd : ClanInfo) (cw : CurrentWar)
    (wl : WarLog) (reg : Registry) (ids : List String) (bms : List (String × Nat))
    (h : generate_html_for_clan clan_tag (some cd) (some cw) (some wl) =
      Except.ok (.report reg ids bms))
    (hlen : (wl.items.getD []).length ≤ 5)
    (hwnd : ∀ war ∈ wl.items.getD [],
      ((firstMatchingParticipants clan_tag war).map (fun p => p.tag)).Nodup) :
    ∀ k s, (k, s) ∈ reg →
      s.total_war_fame =
        (ids.map (fun id => ((getVal s.war_history id).getD ⟨0, 0⟩).fame)).sum ∧
      s.total_decks_used =
        (ids.map (fun id => ((getVal s.war_history id).getD ⟨0, 0⟩).decksUsed)).sum ∧
      ((∀ m ∈ cd.memberList.getD [], m.tag ≠ k) →
        s.current_war_fame = 0 ∧ s.current_war_decks_used = 0) := by
  obtain ⟨reg0, reg1, hseed, hover, hrep⟩ :=
    aggregateClan_ok_elim _ _ _ _ _ (generate_ok_report_elim _ _ _ _ _ _ _ h)
  injection hrep with hreg hids hbms
  subst hreg
  subst hids
  obtain ⟨hk1, hnd1, hval1⟩ := preLoop_registry cd cw reg0 reg1 hseed hover
  intro k s hks
  have hnd2 : ((addFormerMembers
      (allParticipantTags clan_tag (wl.items.getD []) (reg1.map Prod.fst)) reg1).map
        Prod.fst).Nodup :=
    nodup_map_fst_addFormerMembers _ _ hnd1
  have hndfinal : ((warLoopGo clan_tag (wl.items.getD []).enum
      (addFormerMembers
        (allParticipantTags clan_tag (wl.items.getD []) (reg1.map Prod.fst)) reg1,
        [])).1.map Prod.fst).Nodup := by
    rw [map_fst_warLoopGo]
    exact hnd2
  have hget := getVal_eq_some_of_mem_of_nodup _ _ _ hndfinal hks
  rw [getVal_warLoopGo] at hget
  obtain ⟨s0, hs0, hsfold⟩ := Option.map_eq_some'.mp hget
  have hs0' := hs0
  rw [getVal_addFormerMembers] at hs0'
  have hs0facts : s0.total_war_fame = 0 ∧ s0.total_decks_used = 0 ∧ s0.war_history = [] := by
    by_cases hkm : k ∈ reg1.map Prod.fst
    · rw [if_pos hkm] at hs0'
      exact hval1 k s0 hs0'
    · rw [if_neg hkm] at hs0'
      by_cases hts : k ∈ allParticipantTags clan_tag (wl.items.getD []) (reg1.map Prod.fst)
      · rw [if_pos hts] at hs0'
        injection hs0' with hs0'
        rw [← hs0']
        exact ⟨rfl, rfl, rfl⟩
      · rw [if_neg hts] at hs0'
        exact Option.noConfusion hs0'
  subst hsfold
  have hidsnodup := warIds_nodup (wl.items.getD []) hlen
  have hsumeq : ∀ iw ∈ (wl.items.getD []).enum,
      ((getVal ((wl.items.getD []).enum.foldl (recordWarStep clan_tag k) s0).war_history
          (warIdOf iw.1 iw.2)).getD ⟨0, 0⟩).fame =
        ((matchesOf clan_tag k iw).map (fun p => p.fame.getD 0)).sum ∧
      ((getVal ((wl.items.getD []).enum.foldl (recordWarStep clan_tag k) s0).war_history
          (warIdOf iw.1 iw.2)).getD ⟨0, 0⟩).decksUsed =
        ((matchesOf clan_tag k iw).map (fun p => p.decksUsed.getD 0)).sum := by
    intro iw hiw
    have hlook := foldl_recordWarStep_history_lookup clan_tag k
      (wl.items.getD []).enum s0 hidsnodup iw hiw
    have hmemw : iw.2 ∈ wl.items.getD [] := by
      have h1 : iw.2 ∈ (wl.items.getD []).enum.map Prod.snd :=
        List.mem_map_of_mem Prod.snd hiw
      rwa [List.enum_map_snd] at h1
    obtain ⟨he1, he2⟩ := sum_matches_eq_entry clan_tag k iw (hwnd iw.2 hmemw)
    rw [hlook]
    exact ⟨by rw [Option.getD_some, ← he1], by rw [Option.getD_some, ← he2]⟩
  obtain ⟨ht1, ht2⟩ := foldl_recordWarStep_totals clan_tag k (wl.items.getD []).enum s0
  refine ⟨?_, ?_, ?_⟩
  · rw [ht1, hs0facts.1, Nat.zero_add, sum_map_flatMap, List.map_map]
    apply congrArg List.sum
    apply List.map_congr_left
    intro iw hiw
    exact ((hsumeq iw hiw).1).symm
  · rw [ht2, hs0facts.2.1, Nat.zero_add, sum_map_flatMap, List.map_map]
    apply congrArg List.sum
    apply List.map_congr_left
    intro iw hiw
    exact ((hsumeq iw hiw).2).symm
  · intro hmk
    have hnotmem : k ∉ reg1.map Prod.fst := by
      intro hmem
      obtain ⟨m, hm, htag⟩ := (hk1 k).mp hmem
      exact hmk m hm htag
    rw [if_neg hnotmem] at hs0'
    by_cases hts : k ∈ allParticipantTags clan_tag (wl.items.getD []) (reg1.map Prod.fst)
    · rw [if_pos hts] at hs0'
      injection hs0' with hs0'
      obtain ⟨hc1, hc2⟩ := foldl_recordWarStep_current clan_tag k (wl.items.getD []).enum s0
      rw [hc2, hc1, ← hs0']
      exact ⟨rfl, rfl⟩
    · rw [if_neg hts] at hs0'
      exact Option.noConfusion hs0'

/-- C8 (amended): a record whose tag is not in the current roster starts from
the placeholder name, and its final name is obtained by folding the
placeholder-replacement rule of lines 138-139 over all matching war-log
participants in processing order: each match replaces the name only while it
still equals the placeholder, so the first match whose suffixed reported name
differs from the placeholder fixes the name for good (a reported name of
`"Former Member"` reproduces the placeholder and can be replaced again). -/
theorem former_name_replacement (clan_tag : String) (cd : ClanInfo) (cw : CurrentWar)
    (wl : WarLog) (reg : Registry) (ids : List String) (bms : List (String × Nat))
    (h : generate_html_for_clan clan_tag (some cd) (some cw) (some wl) =
      Except.ok (.report reg ids bms))
    (k : Option String) (hmk : ∀ m ∈ cd.memberList.getD [], m.tag ≠ k) :
    ∀ s, (k, s) ∈ reg →
      s.name = ((wl.items.getD []).enum.flatMap (matchesOf clan_tag k)).foldl
        nameStep "Former Member (*)" := by
  obtain ⟨reg0, reg1, hseed, hover, hrep⟩ :=
    aggregateClan_ok_elim _ _ _ _ _ (generate_ok_report_elim _ _ _ _ _ _ _ h)
  injection hrep with hreg hids hbms
  subst hreg
  obtain ⟨hk1, hnd1, hval1⟩ := preLoop_registry cd cw reg0 reg1 hseed hover
  intro s hks
  have hnd2 : ((addFormerMembers
      (allParticipantTags clan_tag (wl.items.getD []) (reg1.map Prod.fst)) reg1).map
        Prod.fst).Nodup :=
    nodup_map_fst_addFormerMembers _ _ hnd1
  have hndfinal : ((warLoopGo clan_tag (wl.items.getD []).enum
      (addFormerMembers
        (allParticipantTags clan_tag (wl.items.getD []) (reg1.map Prod.fst)) reg1,
        [])).1.map Prod.fst).Nodup := by
    rw [map_fst_warLoopGo]
    exact hnd2
  have hget := getVal_eq_some_of_mem_of_nodup _ _ _ hndfinal hks
  rw [getVal_warLoopGo] at hget
  obtain ⟨s0, hs0, hsfold⟩ := Option.map_eq_some'.mp hget
  have hnotmem : k ∉ reg1.map Prod.fst := by
    intro hmem
    obtain ⟨m, hm, htag⟩ := (hk1 k).mp hmem
    exact hmk m hm htag
  rw [getVal_addFormerMembers, if_neg hnotmem] at hs0
  have hs0name : s0.name = "Former Member (*)" := by
    by_cases hts : k ∈ allParticipantTags clan_tag (wl.items.getD []) (reg1.map Prod.fst)
    · rw [if_pos hts] at hs0
      injection hs0 with hs0
      rw [← hs0]
      rfl
    · rw [if_neg hts] at hs0
      exact Option.noConfusion hs0
  subst hsfold
  rw [foldl_recordWarStep_name, hs0name]

/-- C10: the current-war overlay step preserves the registry keys, leaves
every entry's name, cumulative totals and war history unchanged, and leaves
entries whose tag does not occur in the current-war participant list entirely
unchanged (only matching entries' current-war fields can change). -/
theorem current_war_overlay_frame (cw : CurrentWar) (reg reg' : Registry)
    (h : overlayGo (cwParts cw) reg = Except.ok reg') :
    reg'.map Prod.fst = reg.map Prod.fst ∧
    (∀ k, (∀ p ∈ cwParts cw, p.tag ≠ k) → getVal reg' k = getVal reg k) ∧
    (∀ k s', getVal reg' k = some s' →
      ∃ s, getVal reg k = some s ∧ s'.name = s.name ∧
        s'.total_war_fame = s.total_war_fame ∧
        s'.total_decks_used = s.total_decks_used ∧
        s'.war_history = s.war_history) :=
  ⟨overlayGo_keys _ _ _ h, overlayGo_untouched _ _ _ h, overlayGo_values _ _ _ h⟩

/-- C5 (amended): the per-clan report short-circuits to the degraded error
fragment exactly when at least one of the three payloads is falsy in the
Python sense — the `None` failure sentinel or an empty-but-valid JSON object
(the `not all([...])` check conflates the two); on every other input the
result is an aggregated report or a `KeyError`, never the error fragment. -/
theorem error_shortcircuit (clan_tag : String) (a : Option ClanInfo)
    (b : Option CurrentWar) (c : Option WarLog) :
    generate_html_for_clan clan_tag a b c = Except.ok .errorFragment ↔
      ¬((∃ cd, a = some cd ∧ truthyClanInfo cd = true) ∧
        (∃ cw, b = some cw ∧ truthyCurrentWar cw = true) ∧
        (∃ wl, c = some wl ∧ truthyWarLog wl = true)) := by
  cases a with
  | none => simp [generate_html_for_clan]
  | some cd =>
      cases b with
      | none => simp [generate_html_for_clan]
      | some cw =>
          cases c with
          | none => simp [generate_html_for_clan]
          | some wl =>
              simp only [generate_html_for_clan]
              by_cases ht : (truthyClanInfo cd && truthyCurrentWar cw && truthyWarLog wl) = true
              · rw [if_pos ht]
                simp only [Bool.and_eq_true] at ht
                constructor
                · intro hagg
                  exact absurd rfl (aggregateClan_ne_errorFragment _ _ _ _ _ hagg)
                · intro hneg
                  exact absurd ⟨⟨cd, rfl, ht.1.1⟩, ⟨cw, rfl, ht.1.2⟩, ⟨wl, rfl, ht.2⟩⟩ hneg
              · rw [if_neg ht]
                constructor
                · intro _
                  rintro ⟨⟨cd', hcd, h1⟩, ⟨cw', hcw, h2⟩, ⟨wl', hwl, h3⟩⟩
                  injection hcd with hcd
                  injection hcw with hcw
                  injection hwl with hwl
                  subst hcd
                  subst hcw
                  subst hwl
                  exact ht (by rw [h1, h2, h3]; rfl)
                · intro _
                  rfl

/-- C5 counterexample: an empty-but-valid clan-info object (`{}`) is not the
failure sentinel, yet the report takes the degraded error path, so
empty-but-valid JSON is not aggregated. -/
theorem error_shortcircuit_counterexample :
    generate_html_for_clan "#2V2VRRLJ" (some ⟨none, false⟩)
        (some ⟨some ⟨some []⟩, false⟩) (some ⟨some [], false⟩) =
      Except.ok .errorFragment ∧
    some (⟨none, false⟩ : ClanInfo) ≠ none ∧
    some (⟨some ⟨some []⟩, false⟩ : CurrentWar) ≠ none ∧
    some (⟨some [], false⟩ : WarLog) ≠ none :=
  ⟨rfl, by decide, by decide, by decide⟩

/-- C6 counterexample: a clan-info member entry without a `tag` field makes
the aggregation raise a `KeyError` (line 88 uses `member['tag']`), so missing
nested fields are not universally defaulted. -/
theorem missing_member_tag_counterexample :
    generate_html_for_clan "#T" (some ⟨some [⟨none, some "Alice"⟩], false⟩)
      (some ⟨some ⟨some []⟩, false⟩) (some ⟨some [], false⟩) =
      Except.error "KeyError: tag" := rfl

/-- C6 (amended): aggregation of truthy payloads completes without raising,
defaulting missing participant fields, standings, dates and member lists to
zero/empty, provided every clan-info member entry carries its `tag` and
`name` (those two are read by direct subscript and raise `KeyError` when
absent). -/
theorem missing_fields_defaulted (clan_tag : String) (cd : ClanInfo) (cw : CurrentWar)
    (wl : WarLog)
    (hm : ∀ m ∈ cd.memberList.getD [], m.tag.isSome ∧ m.name.isSome) :
    ∃ r, generate_html_for_clan clan_tag (some cd) (some cw) (some wl) = Except.ok r := by
  by_cases ht : (truthyClanInfo cd && truthyCurrentWar cw && truthyWarLog wl) = true
  · obtain ⟨ts, hts⟩ := currentMemberTags_ok _ (fun m hm' => (hm m hm').1)
    obtain ⟨reg0, hreg0⟩ := seedPlayerStats_ok _ [] hm
    have hkeys : ∀ k ∈ reg0.map Prod.fst, k.isSome := by
      intro k hk
      rcases (seedPlayerStats_keys _ _ _ hreg0 k).mp hk with h0 | ⟨m, hm', htag⟩
      · simp at h0
      · rw [← htag]; exact (hm m hm').1
    obtain ⟨reg1, hreg1⟩ := overlayGo_ok (cwParts cw) reg0 hkeys
    have hagg : ∃ r, aggregateClan clan_tag cd cw wl = Except.ok r := by
      unfold aggregateClan
      simp only [hts, hreg0, hreg1]
      exact ⟨_, rfl⟩
    obtain ⟨r, hr⟩ := hagg
    refine ⟨r, ?_⟩
    simp only [generate_html_for_clan]
    rw [if_pos ht]
    exact hr
  · refine ⟨.errorFragment, ?_⟩
    simp only [generate_html_for_clan]
    rw [if_neg ht]

/-! ## Concrete fixtures for the witnesses

A one-member roster (`#A` Alice), a current war in which Alice used 3 decks
for 7 fame, and a one-war log whose matching standing contains only the
departed player `#B` Bob (10 fame, 4 decks); the war has no `createdDate`. -/

def exClanInfo : ClanInfo := ⟨some [⟨some "#A", some "Alice"⟩], false⟩

def exCurrentWar : CurrentWar :=
  ⟨some ⟨some [⟨some "#A", some "Alice", some 7, some 3⟩]⟩, false⟩

def exWar : War :=
  ⟨none, some [⟨some ⟨some "#T", some [⟨some "#B", some "Bob", some 10, some 4⟩]⟩⟩]⟩

def exWarLog : WarLog := ⟨some [exWar], false⟩

def exStatsA : PlayerStats := ⟨"Alice", 3, 7, 0, 0, [("War 1 (N/A)", ⟨0, 0⟩)]⟩

def exStatsB : PlayerStats := ⟨"Bob (*)", 0, 0, 10, 4, [("War 1 (N/A)", ⟨10, 4⟩)]⟩

def exRegistry : Registry := [(some "#A", exStatsA), (some "#B", exStatsB)]

def exWarIds : List String := ["War 1 (N/A)"]

def exBms : List (String × Nat) := [("War 1 (N/A)", 16)]

/-- Fixtures for the former-member name evolution: an empty roster and two
logged wars in which tag `#P` is reported first as `"Former Member"` and then
as `"Bob"`. -/
def c8War1 : War :=
  ⟨some "2024-01-02T00:00:00Z",
   some [⟨some ⟨some "#T", some [⟨some "#P", some "Former Member", some 10, some 4⟩]⟩⟩]⟩

def c8War2 : War :=
  ⟨some "2024-01-09T00:00:00Z",
   some [⟨some ⟨some "#T", some [⟨some "#P", some "Bob", some 5, some 2⟩]⟩⟩]⟩

def c8WarLog : WarLog := ⟨some [c8War1, c8War2], false⟩

def c8Stats : PlayerStats :=
  ⟨"Bob (*)", 0, 0, 15, 6,
   [("War 1 (2024-01-02)", ⟨10, 4⟩), ("War 2 (2024-01-09)", ⟨5, 2⟩)]⟩

def c8Registry : Registry := [(some "#P", c8Stats)]

def c8Ids : List String := ["War 1 (2024-01-02)", "War 2 (2024-01-09)"]

def c8Bms : List (String × Nat) :=
  [("War 1 (2024-01-02)", 16), ("War 2 (2024-01-09)", 16)]

/-- Registry before the current-war overlay, for the frame witness. -/
def c10Before : Registry := [(some "#A", freshStats "Alice")]

/-- Registry after overlaying `exCurrentWar`. -/
def c10After : Registry := [(some "#A", ⟨"Alice", 3, 7, 0, 0, []⟩)]

/-- C8 counterexample: in the first logged war, tag `#P`'s first matching
participant reports the name `"Former Member"`, whose suffixed form is again
the placeholder; the second war then overwrites it, so the final name is
`"Bob (*)"`, not the first match's suffixed name — the first replacement is
not final. -/
theorem former_name_replacement_counterexample :
    generate_html_for_clan "#T" (some ⟨some [], false⟩) (some ⟨some ⟨some []⟩, false⟩)
        (some c8WarLog) =
      Except.ok (.report c8Registry c8Ids c8Bms) ∧
    (matchesOf "#T" (some "#P") (0, c8War1)).map (fun p => (p.name.getD "None") ++ " (*)") =
      ["Former Member (*)"] ∧
    getVal c8Registry (some "#P") = some c8Stats ∧
    c8Stats.name = "Bob (*)" ∧
    c8Stats.name ≠ "Former Member (*)" :=
  ⟨rfl, rfl, rfl, rfl, by decide⟩

/-- C1 witness: the departed tag `#B` is a registry key because it appears in
the logged war's matching standing. -/
theorem registry_keys_union_witness :
    some "#B" ∈ exRegistry.map Prod.fst ↔
      (∃ m ∈ exClanInfo.memberList.getD [], m.tag = some "#B") ∨
      (∃ war ∈ exWarLog.items.getD [], ∃ st ∈ war.standings.getD [],
        standingClanTag st = some "#T" ∧ ∃ p ∈ standingParts st, p.tag = some "#B") :=
  registry_keys_union "#T" exClanInfo exCurrentWar exWarLog exRegistry exWarIds exBms
    rfl (some "#B")

/-- C2 witness: Alice's history has exactly one entry for the only war id,
and it is the zero entry because she is absent from that war's standing. -/
theorem war_history_complete_witness :
    (exStatsA.war_history.map Prod.fst).count "War 1 (N/A)" = 1 ∧
    getVal exStatsA.war_history (warIdOf 0 exWar) = some ⟨0, 0⟩ :=
  ⟨(war_history_complete "#T" exClanInfo exCurrentWar exWarLog exRegistry exWarIds exBms
      rfl (by decide) (some "#A") exStatsA (by decide)).1 "War 1 (N/A)" (by decide),
   (war_history_complete "#T" exClanInfo exCurrentWar exWarLog exRegistry exWarIds exBms
      rfl (by decide) (some "#A") exStatsA (by decide)).2.2 (0, exWar) (by decide) (by decide)⟩

/-- C7 witness: Bob's cumulative fame equals the sum of his history entries
and his current-war fame is zero since he is not on the roster. -/
theorem cumulative_totals_witness :
    exStatsB.total_war_fame =
      (exWarIds.map (fun id => ((getVal exStatsB.war_history id).getD ⟨0, 0⟩).fame)).sum ∧
    exStatsB.current_war_fame = 0 :=
  ⟨(cumulative_totals "#T" exClanInfo exCurrentWar exWarLog exRegistry exWarIds exBms
      rfl (by decide) (by decide) (some "#B") exStatsB (by decide)).1,
   ((cumulative_totals "#T" exClanInfo exCurrentWar exWarLog exRegistry exWarIds exBms
      rfl (by decide) (by decide) (some "#B") exStatsB (by decide)).2.2 (by decide)).1⟩

/-- C8 witness: the final name of `#P` is the fold of the replacement rule
over both wars' matches. -/
theorem former_name_replacement_witness :
    c8Stats.name = ((c8WarLog.items.getD []).enum.flatMap (matchesOf "#T" (some "#P"))).foldl
      nameStep "Former Member (*)" :=
  former_name_replacement "#T" ⟨some [], false⟩ ⟨some ⟨some []⟩, false⟩ c8WarLog
    c8Registry c8Ids c8Bms rfl (some "#P") (by decide) c8Stats (by decide)

/-- C10 witness: overlaying the current war keeps the key list and leaves a
tag absent from the payload untouched. -/
theorem current_war_overlay_frame_witness :
    c10After.map Prod.fst = c10Before.map Prod.fst ∧
    getVal c10After (some "#Z") = getVal c10Before (some "#Z") :=
  ⟨(current_war_overlay_frame exCurrentWar c10Before c10After rfl).1,
   (current_war_overlay_frame exCurrentWar c10Before c10After rfl).2.1 (some "#Z")
     (by decide)⟩

/-- C6 witness: payloads with a missing participant fame/decks, a war with no
standings and no date, and a member list with tags and names, aggregate
without raising. -/
theorem missing_fields_defaulted_witness :
    (generate_html_for_clan "#T" (some ⟨some [⟨some "#A", some "Alice"⟩], false⟩)
      (some ⟨some ⟨some [⟨some "#A", none, none, none⟩]⟩, false⟩)
      (some ⟨some [⟨none, none⟩], false⟩)).toOption.isSome = true := by
  obtain ⟨r, hr⟩ := missing_fields_defaulted "#T" ⟨some [⟨some "#A", some "Alice"⟩], false⟩
    ⟨some ⟨some [⟨some "#A", none, none, none⟩]⟩, false⟩
    ⟨some [⟨none, none⟩], false⟩ (by decide)
  rw [hr]
  rfl

end DarkWarReport

